import Mathlib

/-!
Verification of the zekta-time-series storage engine.

Shallow embedding of the core components:
* `binarySearch` — the comparator-based insertion-point search
  (src/src/helpers.private/binary-search/binary-search.ts);
* `ZektaTimeBucket` — the single-file sorted run of `(time, value)` entries with
  push / insert / select / delete / drop / flush (src/unnamed/part_000);
* `ResizeableBuffer` — the growable byte arena (src/unnamed/part_002);
* `handlePromiseAllSettledResult` — the settled fan-out helper (src/unnamed/part_003);
* `ZektaTimeSeries` — the sorted sparse collection of buckets
  (the class following the binary-search test in src/src/helpers.private/binary-search/).

Modelling conventions:
* Timestamps are IEEE-754 doubles in the source; every operation observes them only
  through order comparisons and sign of subtraction, which agree with the real order
  on finite doubles, so times are modelled as `Int`.
* Bucket byte buffers always hold a whole number of `8 + V`-byte records and every
  access is record-aligned, so the in-memory data and the bucket file are modelled at
  record granularity as `List Entry` (the little-endian serialisation of a record is
  injective for a fixed value length, so file equality at byte and at record
  granularity coincide).
* The per-object promise queues linearise operations, so each operation is a pure
  state transformer; a thrown exception is an `Except.error` paired with the
  state the operation leaves behind.
-/

/-- One time-series record: an 8-byte float time plus a fixed-length byte payload. -/
structure Entry where
  time : Int
  value : List Nat
  deriving DecidableEq, Repr, Inhabited

/-- Loop of `binarySearch` (binary-search.ts lines 26-39): `low`/`high` cursors, midpoint
probe, early exit when the comparator returns 0.  The source's `high` becomes `-1` only
when the loop is about to exit, so both cursors stay `Nat` and each `high = mid - 1`
update that would drop below `low` is an exit.  Each iteration shrinks the bracket
`high + 1 - low`, so the loop runs at most `high + 1 - low` times; `fuel` bounds the
iteration count and is never exhausted when chosen that large. -/
def binarySearchGo (compare : Nat → Int) : Nat → Nat → Nat → Nat
  | low, _, 0 => low
  | low, high, fuel + 1 =>
    let mid := (low + high) / 2
    let result := compare mid
    if result = 0 then mid
    else if result < 0 then
      if mid + 1 ≤ high then binarySearchGo compare (mid + 1) high fuel else mid + 1
    else
      if low + 1 ≤ mid then binarySearchGo compare low (mid - 1) fuel else low

/-- `binarySearch` from binary-search.ts: insertion-point search over an abstract sorted
collection, driven by a comparator returning the sign of `item[index] - value`.  With
`low = 0` and `high = length - 1` a fuel of `length` covers every iteration. -/
def binarySearch (length : Nat) (compare : Nat → Int) : Nat :=
  if length = 0 then 0 else binarySearchGo compare 0 (length - 1) length

/-- `ZektaTimeBucket.#timeRange` (512 time units per bucket). -/
def timeRange : Int := 512

/-- `ZektaTimeBucket.getIdFromTime`: `Math.floor(time / 512)` (floor division). -/
def getIdFromTime (time : Int) : Int := Int.fdiv time timeRange

/-- `ZektaTimeBucket.getTimeFromId`: `id * 512`. -/
def getTimeFromId (id : Int) : Int := id * timeRange

/-- State of a `ZektaTimeBucket`: identity and value size, the lazily loaded in-memory
record list (`none` = unloaded), the `#requireFlush` dirty flag, and the contents of the
backing file `<bucketsPath>/<id>.bucket` (`none` = the file does not exist). -/
structure ZektaTimeBucket where
  id : Int
  valueByteLength : Nat
  data : Option (List Entry)
  requireFlush : Bool
  file : Option (List Entry)
  deriving DecidableEq, Repr, Inhabited

namespace ZektaTimeBucket

/-- `this.#from = getTimeFromId(id)`. -/
def fromTime (b : ZektaTimeBucket) : Int := getTimeFromId b.id

/-- `this.#to = getTimeFromId(id + 1)`. -/
def toTime (b : ZektaTimeBucket) : Int := getTimeFromId (b.id + 1)

/-- `isTimeInRange`: `#from <= time && time < #to`. -/
def isTimeInRange (b : ZektaTimeBucket) (time : Int) : Prop :=
  b.fromTime ≤ time ∧ time < b.toTime

instance (b : ZektaTimeBucket) (time : Int) : Decidable (b.isTimeInRange time) :=
  inferInstanceAs (Decidable (_ ∧ _))

/-- A bucket as built by the constructor: nothing loaded, clean; the backing file is
whatever is on disk (`none` when absent). -/
def mkBucket (id : Int) (valueByteLength : Nat) (file : Option (List Entry)) :
    ZektaTimeBucket :=
  { id := id, valueByteLength := valueByteLength, data := none, requireFlush := false,
    file := file }

/-- `#loadData`: on first use read the file (its records) or start empty on `ENOENT`. -/
def loadData (b : ZektaTimeBucket) : ZektaTimeBucket :=
  match b.data with
  | some _ => b
  | none => { b with data := some (b.file.getD []) }

end ZektaTimeBucket

/-- `#getInsertionByteOffset` at record granularity (part_000 lines 253-275): empty data
inserts at 0; `time` at or past the last entry appends; at or before the first entry
prepends; otherwise a `binarySearch` over entry indices with the comparator
`time(index) - time`. -/
def getInsertionIndex (d : List Entry) (time : Int) : Nat :=
  if d.length = 0 then 0
  else if (d.getD (d.length - 1) default).time ≤ time then d.length
  else if time ≤ (d.getD 0 default).time then 0
  else binarySearch d.length (fun index => (d.getD index default).time - time)

/-- Backward walk of `#getTimeRangeByteOffsets` (lines 279-284): while the previous
entry's time equals `time`, step left one record. -/
def walkBackEqual (d : List Entry) (time : Int) : Nat → Nat
  | 0 => 0
  | k + 1 => if (d.getD k default).time = time then walkBackEqual d time k else k + 1

/-- Loop of the forward walk of `#getTimeRangeByteOffsets` (lines 288-290): while the
cursor is in range and the entry at the cursor has time equal to `time`, step right one
record.  The cursor grows towards `d.length`, so a fuel of `d.length - k` covers every
iteration. -/
def walkForwardEqualGo (d : List Entry) (time : Int) : Nat → Nat → Nat
  | k, 0 => k
  | k, fuel + 1 =>
    if k < d.length ∧ (d.getD k default).time = time then
      walkForwardEqualGo d time (k + 1) fuel
    else k

/-- Forward walk of `#getTimeRangeByteOffsets`, started with adequate fuel. -/
def walkForwardEqual (d : List Entry) (time : Int) (k : Nat) : Nat :=
  walkForwardEqualGo d time k (d.length - k)

/-- `#getTimeRangeByteOffsets` at record granularity: start = insertion point of `lo`
walked back over the equal-`lo` run, end (exclusive) = insertion point of `hi` walked
forward over the equal-`hi` run. -/
def getTimeRangeIndexes (d : List Entry) (lo hi : Int) : Nat × Nat :=
  (walkBackEqual d lo (getInsertionIndex d lo),
   walkForwardEqual d hi (getInsertionIndex d hi))

/-- Record-level in-place insertion: grow by one record, shift the tail right, write the
new record into the hole (`#pushRaw`'s `resize` + `copyWithin` + `#setTime`/`#setValue`). -/
def insertAt (d : List Entry) (k : Nat) (e : Entry) : List Entry :=
  d.take k ++ e :: d.drop k

/-- `#pushRaw`: insert a record at its insertion index. -/
def pushRaw (d : List Entry) (time : Int) (value : List Nat) : List Entry :=
  insertAt d (getInsertionIndex d time) ⟨time, value⟩

namespace ZektaTimeBucket

/-- `push` (part_000 lines 318-325): load, validate time range and value length, then
`#pushRaw` and set the dirty flag.  A validation failure leaves the state untouched. -/
def push (b : ZektaTimeBucket) (time : Int) (value : List Nat) :
    Except String Unit × ZektaTimeBucket :=
  let b := b.loadData
  let d := b.data.getD []
  if ¬ b.isTimeInRange time then (.error "Time out-of-range.", b)
  else if value.length ≠ b.valueByteLength then (.error "Invalid value length.", b)
  else (.ok (), { b with data := some (pushRaw d time value), requireFlush := true })

/-- Loop body of `insert` (lines 335-340): validate and `#pushRaw` each entry of the
(already sorted) batch in order; the first invalid entry aborts, keeping the data
written so far. -/
def insertLoop (b : ZektaTimeBucket) (d : List Entry) :
    List Entry → Except String Unit × List Entry
  | [] => (.ok (), d)
  | e :: rest =>
    if ¬ b.isTimeInRange e.time then (.error "Time out-of-range.", d)
    else if e.value.length ≠ b.valueByteLength then (.error "Invalid value length.", d)
    else insertLoop b (pushRaw d e.time e.value) rest

/-- Modelled from the spec: `sortTimeSeriesEntries` is imported from the external
`@thingmate/time-series` package (not under src/); per the spec it sorts entries by
ascending time.  JavaScript's `Array.prototype.sort` is stable, and any two stable
sorts agree pointwise, so the executable stable insertion sort represents it exactly. -/
def sortTimeSeriesEntries (entries : List Entry) : List Entry :=
  entries.insertionSort (fun x y => x.time ≤ y.time)

/-- `insert` (lines 327-344): load, return at once on an empty batch, otherwise sort the
batch by time and run the validation/push loop; only a fully successful loop sets the
dirty flag. -/
def insert (b : ZektaTimeBucket) (entries : List Entry) :
    Except String Unit × ZektaTimeBucket :=
  let b := b.loadData
  let d := b.data.getD []
  if entries.length = 0 then (.ok (), b)
  else
    match insertLoop b d (sortTimeSeriesEntries entries) with
    | (.ok _, d') => (.ok (), { b with data := some d', requireFlush := true })
    | (.error s, d') => (.error s, { b with data := some d' })

/-- `select` (lines 346-393): a range missing the bucket returns `[]` without loading;
otherwise load, map the inclusive `[lo, hi]` range to record indexes, and copy that
slice out — ascending for `asc`, descending (the reversed slice) otherwise. -/
def select (b : ZektaTimeBucket) (lo hi : Int) (asc : Bool) :
    List Entry × ZektaTimeBucket :=
  if b.toTime ≤ lo ∨ hi < b.fromTime then ([], b)
  else
    let b := b.loadData
    let d := b.data.getD []
    let idx := getTimeRangeIndexes d lo hi
    let slice := (d.drop idx.1).take (idx.2 - idx.1)
    (if asc then slice else slice.reverse, b)

/-- `delete` (lines 395-418): a range missing the bucket returns without loading;
otherwise load, map the range to record indexes, and when the span is nonempty shift the
tail left over it, shrink, and set the dirty flag. -/
def delete (b : ZektaTimeBucket) (lo hi : Int) : ZektaTimeBucket :=
  if b.toTime ≤ lo ∨ hi < b.fromTime then b
  else
    let b := b.loadData
    let d := b.data.getD []
    let idx := getTimeRangeIndexes d lo hi
    if idx.1 = idx.2 then b
    else { b with data := some (d.take idx.1 ++ d.drop idx.2), requireFlush := true }

/-- `drop` (lines 420-429): load; an already-empty bucket returns at once, otherwise
truncate to zero length and set the dirty flag. -/
def drop (b : ZektaTimeBucket) : ZektaTimeBucket :=
  let b := b.loadData
  let d := b.data.getD []
  if d.length = 0 then b
  else { b with data := some [], requireFlush := true }

/-- `flush` (lines 433-457): when dirty, persist — remove the file if the data is empty,
else write `data[0..length]` — and clear the flag (reading `#data!` while unloaded is the
runtime `TypeError` the source would throw past its `console.assert`); then optionally
unload. -/
def flush (b : ZektaTimeBucket) (unload : Bool) :
    Except String Unit × ZektaTimeBucket :=
  if b.requireFlush then
    match b.data with
    | none => (.error "TypeError: data is undefined.", b)
    | some d =>
      let b := { b with file := if d.length = 0 then none else some d,
                        requireFlush := false }
      (.ok (), if unload then { b with data := none } else b)
  else
    (.ok (), if unload then { b with data := none } else b)

/-- A sequence of `push` calls, stopping at the first failure (each call goes through
the bucket's serialiser, so the sequence is just function composition). -/
def pushAll (b : ZektaTimeBucket) : List Entry → Except String ZektaTimeBucket
  | [] => .ok b
  | e :: rest =>
    match b.push e.time e.value with
    | (.ok _, b') => pushAll b' rest
    | (.error s, _) => .error s

end ZektaTimeBucket

/-! ### ResizeableBuffer (src/unnamed/part_002) -/

/-- `MAX_BYTES`: `0x100000000`, the arena's hard capacity cap. -/
def maxBytes : Nat := 2 ^ 32

/-- Fuel-driven search for the least exponent `e` with `target ≤ 4 ^ e`. -/
def findExpAux (target : Nat) : Nat → Nat → Nat
  | e, 0 => e
  | e, fuel + 1 => if target ≤ 4 ^ e then e else findExpAux target (e + 1) fuel

/-- `Math.ceil(Math.log2 n + 0.5)` for an integer `n ≥ 1`: the least `e` with
`log2 n + 1/2 ≤ e`, i.e. `n·√2 ≤ 2^e`, i.e. `2·n² ≤ 4^e`.  The double-precision
computation in the source agrees with this exact value for every `n ≤ 2^32`: the
distance from `log2 n + 0.5` to the nearest integer is at least `2^-37` over that range,
far above the rounding error of `Math.log2`.  Fuel 64 covers every `n < 2^63`. -/
def ceilLog2Half (n : Nat) : Nat := findExpAux (2 * n * n) 0 64

/-- `getOptimalBufferLength` (part_002 lines 68-77):
`(1 << Math.ceil(Math.log2(length) + 0.5)) >>> 0`.  JavaScript's `<<` works on 32-bit
integers and reduces the shift count modulo 32, and `>>> 0` reinterprets the result as
unsigned, so the value is `2 ^ (ceilLog2Half length % 32)`. -/
def getOptimalBufferLength (length : Nat) : Nat := 2 ^ (ceilLog2Half length % 32)

/-- State of a `ResizeableBuffer`: whether the backing `ArrayBuffer` is resizable
in place, its `maxByteLength`, its current `byteLength` (the capacity), and the logical
`#length`. -/
structure ResizeableBuffer where
  resizable : Bool
  maxByteLength : Nat
  byteLength : Nat
  length : Nat
  deriving DecidableEq, Repr

/-- The zero-argument constructor: a fresh resizable `ArrayBuffer(0x100,
{maxByteLength: 0x100000000})` holding no data. -/
def ResizeableBuffer.fresh : ResizeableBuffer :=
  { resizable := true, maxByteLength := maxBytes, byteLength := 256, length := 0 }

/-- The wrapping constructor as used by `#loadData`: a plain (non-resizable) buffer of
`len` bytes read from a file; a non-resizable `ArrayBuffer` has
`maxByteLength === byteLength`. -/
def ResizeableBuffer.ofFileBytes (len : Nat) : ResizeableBuffer :=
  { resizable := false, maxByteLength := len, byteLength := len, length := len }

/-- `ResizeableBuffer.resize` (part_002 lines 36-65).  Resizable backing buffer: reject
`newLength` beyond `maxByteLength` (`"Size limit reached."`), grow in place to
`min(maxByteLength, getOptimalBufferLength newLength)` when `newLength` exceeds the
capacity (an `ArrayBuffer.resize` that may also shrink, and never throws for arguments
within `maxByteLength`).  Non-resizable backing buffer: when `newLength` exceeds the
capacity, allocate a fresh resizable buffer of
`min(0x100000000, getOptimalBufferLength newLength)` bytes (with
`maxByteLength = 0x100000000`) — with no size-limit check — and copy the old bytes over
with `this.#bytes.set(currentBytes)`, which throws a `RangeError` whenever the old
contents are longer than the replacement.  In every non-throwing path `#length` becomes
`newLength`.  The throwing copy leaves the source object partially updated (the buffer
already swapped, `#length` stale); no claim consumes that state, so the model records
only the error outcome. -/
def ResizeableBuffer.resize (buf : ResizeableBuffer) (newLength : Nat) :
    Except String ResizeableBuffer :=
  if buf.resizable then
    if buf.maxByteLength < newLength then .error "Size limit reached."
    else if buf.byteLength < newLength then
      .ok { buf with
              byteLength := min buf.maxByteLength (getOptimalBufferLength newLength),
              length := newLength }
    else .ok { buf with length := newLength }
  else
    if buf.byteLength < newLength then
      if min maxBytes (getOptimalBufferLength newLength) < buf.byteLength then
        .error "RangeError: offset is out of bounds."
      else
        .ok { resizable := true, maxByteLength := maxBytes,
              byteLength := min maxBytes (getOptimalBufferLength newLength),
              length := newLength }
    else .ok { buf with length := newLength }

/-- Stated from the spec's words, for comparison with the source (claim C6): the new
capacity as `min(2^32, 1 << ⌈log2 n + 0.5⌉)` — a mathematical shift — clamped to the
interval `[256, 2^32]`. -/
def specNextCapacityClamped (n : Nat) : Nat :=
  max 256 (min maxBytes (2 ^ ceilLog2Half n))

/-! ### Settled fan-out helper (src/unnamed/part_003) -/

/-- One element of a `Promise.allSettled` result array. -/
inductive SettledResult (ε α : Type) where
  | fulfilled (value : α)
  | rejected (reason : ε)
  deriving DecidableEq, Repr

instance {ε α : Type} [Inhabited α] : Inhabited (SettledResult ε α) :=
  ⟨.fulfilled default⟩

/-- `result.status === 'rejected'`. -/
def SettledResult.isRejected {ε α : Type} : SettledResult ε α → Bool
  | .rejected _ => true
  | .fulfilled _ => false

/-- The `(result as PromiseFulfilledResult).value` cast: the value of a fulfilled
result, `undefined` (modelled as `default`) on a rejected one. -/
def SettledResult.valueD {ε α : Type} [Inhabited α] : SettledResult ε α → α
  | .fulfilled v => v
  | .rejected _ => default

/-- The `.reason` of a rejected result (`default` plays `undefined` on a fulfilled one,
which the source never reads). -/
def SettledResult.reasonD {ε α : Type} [Inhabited ε] : SettledResult ε α → ε
  | .fulfilled _ => default
  | .rejected e => e

/-- The value of a fulfilled result, if any. -/
def SettledResult.fulfilledValue {ε α : Type} : SettledResult ε α → Option α
  | .fulfilled v => some v
  | .rejected _ => none

/-- What `handlePromiseAllSettledResult` throws: the single failure's reason, or an
`AggregateError` carrying all reasons. -/
inductive FanoutError (ε : Type) where
  | single (reason : ε)
  | aggregate (reasons : List ε)
  deriving DecidableEq, Repr

/-- `handlePromiseAllSettledResult` (part_003 lines 9-32): filter the rejected results;
none → map out the fulfilled values; exactly one → rethrow its reason; two or more →
throw an `AggregateError` with every reason. -/
def handlePromiseAllSettledResult {ε α : Type} [Inhabited ε] [Inhabited α]
    (results : List (SettledResult ε α)) : Except (FanoutError ε) (List α) :=
  let errors := results.filter SettledResult.isRejected
  if errors.length = 0 then .ok (results.map SettledResult.valueD)
  else if errors.length = 1 then .error (.single (errors.getD 0 default).reasonD)
  else .error (.aggregate (errors.map SettledResult.reasonD))

/-- The reasons of the rejected results, in order. -/
def rejectedReasons {ε α : Type} (results : List (SettledResult ε α)) : List ε :=
  results.filterMap fun r =>
    match r with
    | .rejected e => some e
    | .fulfilled _ => none

/-! ### ZektaTimeSeries (the class following the binary-search test file) -/

/-- State of a `ZektaTimeSeries`: the configured value size and the bucket list, kept
sorted by id. -/
structure ZektaTimeSeries where
  valueByteLength : Nat
  buckets : List ZektaTimeBucket
  deriving Repr, Inhabited

namespace ZektaTimeSeries

/-- `#getTimeRangeBucketIndexesInArray`: lower-bound searches in the bucket array for
the ids of `lo` and `hi`; the end index is `min(length, search(hi-id) + 1)`,
exclusive. -/
def getTimeRangeBucketIndexes (s : ZektaTimeSeries) (lo hi : Int) : Nat × Nat :=
  let fromBucketId := getIdFromTime lo
  let toBucketId := getIdFromTime hi
  (binarySearch s.buckets.length
     (fun i => (s.buckets.getD i default).id - fromBucketId),
   min s.buckets.length
     (binarySearch s.buckets.length
        (fun i => (s.buckets.getD i default).id - toBucketId) + 1))

/-- The covered span of the bucket array for a range operation: the slice between the
two indexes of `#getTimeRangeBucketIndexesInArray`. -/
def coveredBuckets (s : ZektaTimeSeries) (lo hi : Int) : List ZektaTimeBucket :=
  (s.buckets.drop (s.getTimeRangeBucketIndexes lo hi).1).take
    ((s.getTimeRangeBucketIndexes lo hi).2 - (s.getTimeRangeBucketIndexes lo hi).1)

/-- `select` on the series: compute the covered span of buckets, dispatch each covered
bucket's `select` — left-to-right for ascending, right-to-left for descending — collect
the settled results through `handlePromiseAllSettledResult` (each sub-select is a pure
computation, hence fulfilled) and flatten.  Only the returned value is modelled; the
concurrent loading of bucket data does not affect it. -/
def select (s : ZektaTimeSeries) (lo hi : Int) (asc : Bool) :
    Except (FanoutError String) (List Entry) :=
  let covered := s.coveredBuckets lo hi
  let ordered := if asc then covered else covered.reverse
  let settled := ordered.map fun b => SettledResult.fulfilled (b.select lo hi asc).1
  (handlePromiseAllSettledResult settled).map List.flatten

end ZektaTimeSeries

/-! ### Statement ingredients taken from the claims' own words -/

/-- Insertion into a plain list of numbers at position `k` (the `splice` of the
binary-search documentation example). -/
def insertAtInt (l : List Int) (k : Nat) (x : Int) : List Int :=
  l.take k ++ x :: l.drop k

/-- Claim C7's notion: inserting `x` at position `k` preserves the collection's sorted
order. -/
def preservesOrder (l : List Int) (x : Int) (k : Nat) : Prop :=
  (insertAtInt l k x).Pairwise (· ≤ ·)

instance (l : List Int) (x : Int) (k : Nat) : Decidable (preservesOrder l x k) :=
  inferInstanceAs (Decidable (List.Pairwise _ _))

/-- The predicate selecting the inclusive time range `[lo, hi]` (the spec's
`from ≤ t ≤ to`). -/
def inRangeB (lo hi : Int) (e : Entry) : Bool :=
  decide (lo ≤ e.time) && decide (e.time ≤ hi)

/-- The validity check `insert` applies to each entry of the sorted batch: time in the
bucket's range and value of the configured length. -/
def entryValid (b : ZektaTimeBucket) (e : Entry) : Bool :=
  decide (b.isTimeInRange e.time) && decide (e.value.length = b.valueByteLength)

deriving instance DecidableEq for Except

/-! ### Helper lemmas: the binary search brackets the key -/

/-- Invariant of the `binarySearch` loop: inside a bracket of an index-monotone probe
`g` with everything left of `low` at most `key` and everything right of `high` at least
`key`, the loop lands on a split point — every index left of the result has `g ≤ key`
and every index at or right of it has `key ≤ g`. -/
theorem binarySearchGo_spec (g : Nat → Int) (key : Int) (n : Nat)
    (hmono : ∀ i j, i ≤ j → j < n → g i ≤ g j) :
    ∀ (fuel low high : Nat), low ≤ high → high < n → high + 1 - low ≤ fuel →
    (∀ i, i < low → g i ≤ key) →
    (∀ i, high < i → i < n → key ≤ g i) →
    binarySearchGo (fun j => g j - key) low high fuel ≤ high + 1 ∧
    (∀ i, i < binarySearchGo (fun j => g j - key) low high fuel → i < n → g i ≤ key) ∧
    (∀ i, binarySearchGo (fun j => g j - key) low high fuel ≤ i → i < n → key ≤ g i) := by
  intro fuel
  induction fuel with
  | zero =>
    intro low high hlh _ hfuel _ _
    omega
  | succ fuel ih =>
    intro low high hlh hhn hfuel pre1 pre2
    have hmidlo : low ≤ (low + high) / 2 := by omega
    have hmidhi : (low + high) / 2 ≤ high := by omega
    have hmidn : (low + high) / 2 < n := by omega
    by_cases h0 : g ((low + high) / 2) - key = 0
    · have heq : binarySearchGo (fun j => g j - key) low high (fuel + 1) = (low + high) / 2 := by
        simp [binarySearchGo, h0]
      rw [heq]
      refine ⟨by omega, ?_, ?_⟩
      · intro i hi hin
        have := hmono i ((low + high) / 2) (by omega) hmidn
        omega
      · intro i hi hin
        have := hmono ((low + high) / 2) i hi hin
        omega
    · by_cases hneg : g ((low + high) / 2) - key < 0
      · by_cases hrec : (low + high) / 2 + 1 ≤ high
        · have heq : binarySearchGo (fun j => g j - key) low high (fuel + 1) =
              binarySearchGo (fun j => g j - key) ((low + high) / 2 + 1) high fuel := by
            simp [binarySearchGo, h0, hneg, hrec]
          have pre1' : ∀ i, i < (low + high) / 2 + 1 → g i ≤ key := by
            intro i hi
            have := hmono i ((low + high) / 2) (by omega) hmidn
            omega
          rw [heq]
          exact ih ((low + high) / 2 + 1) high hrec hhn (by omega) pre1' pre2
        · have heq : binarySearchGo (fun j => g j - key) low high (fuel + 1) =
              (low + high) / 2 + 1 := by
            simp [binarySearchGo, h0, hneg, hrec]
          rw [heq]
          refine ⟨by omega, ?_, ?_⟩
          · intro i hi hin
            have := hmono i ((low + high) / 2) (by omega) hmidn
            omega
          · intro i hi hin
            exact pre2 i (by omega) hin
      · by_cases hrec : low + 1 ≤ (low + high) / 2
        · have heq : binarySearchGo (fun j => g j - key) low high (fuel + 1) =
              binarySearchGo (fun j => g j - key) low ((low + high) / 2 - 1) fuel := by
            simp [binarySearchGo, h0, hneg, hrec]
          have pre2' : ∀ i, (low + high) / 2 - 1 < i → i < n → key ≤ g i := by
            intro i hi hin
            have := hmono ((low + high) / 2) i (by omega) hin
            omega
          have h := ih low ((low + high) / 2 - 1) (by omega) (by omega) (by omega) pre1 pre2'
          rw [heq]
          exact ⟨by omega, h.2.1, fun i hi hin => by
            by_cases hc : (low + high) / 2 - 1 < i
            · exact pre2' i hc hin
            · exact h.2.2 i hi hin⟩
        · have heq : binarySearchGo (fun j => g j - key) low high (fuel + 1) = low := by
            simp [binarySearchGo, h0, hneg, hrec]
          rw [heq]
          refine ⟨by omega, fun i hi _ => pre1 i hi, ?_⟩
          intro i hi hin
          have := hmono ((low + high) / 2) i (by omega) hin
          omega

/-- `binarySearch` over an index-monotone probe returns a split point: the result is in
`[0, n]`, every index left of it has `g ≤ key` and every index at or right of it has
`key ≤ g`. -/
theorem binarySearch_spec (g : Nat → Int) (key : Int) (n : Nat)
    (hmono : ∀ i j, i ≤ j → j < n → g i ≤ g j) :
    binarySearch n (fun j => g j - key) ≤ n ∧
    (∀ i, i < binarySearch n (fun j => g j - key) → i < n → g i ≤ key) ∧
    (∀ i, binarySearch n (fun j => g j - key) ≤ i → i < n → key ≤ g i) := by
  unfold binarySearch
  by_cases hn : n = 0
  · subst hn
    simp
  · rw [if_neg hn]
    have h := binarySearchGo_spec g key n hmono n 0 (n - 1) (by omega) (by omega) (by omega)
      (by omega) (by omega)
    exact ⟨by omega, h.2.1, h.2.2⟩

/-! ### Helper lemmas: insertion index and range offsets on sorted data -/

/-- Sortedness of the record list makes the time-at-index probe monotone. -/
theorem times_mono (d : List Entry) (hs : d.Pairwise (fun x y => x.time ≤ y.time)) :
    ∀ i j, i ≤ j → j < d.length →
      (d.getD i default).time ≤ (d.getD j default).time := by
  intro i j hij hj
  rcases Nat.eq_or_lt_of_le hij with rfl | h
  · exact le_refl _
  · have hi : i < d.length := by omega
    have := List.pairwise_iff_getElem.mp hs i j hi hj h
    rwa [List.getD_eq_getElem _ _ hi, List.getD_eq_getElem _ _ hj]

/-- The insertion index on a sorted record list is a split point for the pushed time. -/
theorem getInsertionIndex_spec (d : List Entry) (t : Int)
    (hs : d.Pairwise (fun x y => x.time ≤ y.time)) :
    getInsertionIndex d t ≤ d.length ∧
    (∀ i, i < getInsertionIndex d t → i < d.length → (d.getD i default).time ≤ t) ∧
    (∀ i, getInsertionIndex d t ≤ i → i < d.length → t ≤ (d.getD i default).time) := by
  have hmono := times_mono d hs
  unfold getInsertionIndex
  split_ifs with h1 h2 h3
  · exact ⟨by omega, fun i hi => by omega, fun i _ hin => by omega⟩
  · refine ⟨le_refl _, ?_, ?_⟩
    · intro i hi hin
      exact le_trans (hmono i (d.length - 1) (by omega) (by omega)) h2
    · intro i hi hin
      omega
  · refine ⟨by omega, fun i hi _ => by omega, ?_⟩
    intro i _ hin
    exact le_trans h3 (hmono 0 i (by omega) hin)
  · exact binarySearch_spec (fun j => (d.getD j default).time) t d.length hmono

/-- The backward walk turns a split point into the first index of the equal-time run:
everything strictly left of the result has time strictly below `t`. -/
theorem walkBackEqual_spec (d : List Entry) (t : Int)
    (hs : d.Pairwise (fun x y => x.time ≤ y.time)) :
    ∀ k, k ≤ d.length →
    (∀ i, i < k → (d.getD i default).time ≤ t) →
    (∀ i, k ≤ i → i < d.length → t ≤ (d.getD i default).time) →
    walkBackEqual d t k ≤ k ∧
    (∀ i, i < walkBackEqual d t k → i < d.length → (d.getD i default).time < t) ∧
    (∀ i, walkBackEqual d t k ≤ i → i < d.length → t ≤ (d.getD i default).time) := by
  have hmono := times_mono d hs
  intro k
  induction k with
  | zero =>
    intro _ _ pre2
    simp only [walkBackEqual]
    exact ⟨le_refl _, fun i hi => by omega, pre2⟩
  | succ k ih =>
    intro hk pre1 pre2
    rw [walkBackEqual]
    split_ifs with he
    · have pre2' : ∀ i, k ≤ i → i < d.length → t ≤ (d.getD i default).time := by
        intro i hi hin
        rcases Nat.eq_or_lt_of_le hi with rfl | h
        · exact le_of_eq he.symm
        · exact pre2 i (by omega) hin
      have h := ih (by omega) (fun i hi => pre1 i (by omega)) pre2'
      exact ⟨by omega, h.2.1, h.2.2⟩
    · refine ⟨le_refl _, ?_, pre2⟩
      intro i hi hin
      have hkd : k < d.length := by omega
      have h1 : (d.getD i default).time ≤ (d.getD k default).time := hmono i k (by omega) hkd
      have h2 : (d.getD k default).time ≤ t := pre1 k (by omega)
      rcases lt_or_eq_of_le h2 with h | h
      · omega
      · exact absurd h he

/-- The forward walk turns a split point into the index one past the equal-time run:
everything at or right of the result has time strictly above `t`. -/
theorem walkForwardEqualGo_spec (d : List Entry) (t : Int)
    (hs : d.Pairwise (fun x y => x.time ≤ y.time)) :
    ∀ (fuel k : Nat), k ≤ d.length → d.length - k ≤ fuel →
    (∀ i, i < k → i < d.length → (d.getD i default).time ≤ t) →
    (∀ i, k ≤ i → i < d.length → t ≤ (d.getD i default).time) →
    k ≤ walkForwardEqualGo d t k fuel ∧ walkForwardEqualGo d t k fuel ≤ d.length ∧
    (∀ i, i < walkForwardEqualGo d t k fuel → i < d.length →
      (d.getD i default).time ≤ t) ∧
    (∀ i, walkForwardEqualGo d t k fuel ≤ i → i < d.length →
      t < (d.getD i default).time) := by
  have hmono := times_mono d hs
  intro fuel
  induction fuel with
  | zero =>
    intro k hk hfuel pre1 pre2
    have hkd : k = d.length := by omega
    simp only [walkForwardEqualGo]
    refine ⟨le_refl _, by omega, pre1, ?_⟩
    intro i hi hin
    omega
  | succ fuel ih =>
    intro k hk hfuel pre1 pre2
    rw [walkForwardEqualGo]
    split_ifs with he
    · have pre1' : ∀ i, i < k + 1 → i < d.length → (d.getD i default).time ≤ t := by
        intro i hi hin
        rcases Nat.lt_or_ge i k with h | h
        · exact pre1 i h hin
        · have : i = k := by omega
          subst this
          exact le_of_eq he.2
      have h := ih (k + 1) (by omega) (by omega) pre1' (fun i hi hin => pre2 i (by omega) hin)
      exact ⟨by omega, h.2.1, h.2.2⟩
    · rw [Classical.not_and_iff_or_not_not] at he
      refine ⟨le_refl _, hk, pre1, ?_⟩
      intro i hi hin
      rcases he with he | he
      · omega
      · have hkd : k < d.length := by omega
        have h1 : t ≤ (d.getD k default).time := pre2 k (le_refl _) hkd
        have h2 : (d.getD k default).time ≤ (d.getD i default).time := hmono k i hi hin
        rcases lt_or_eq_of_le h1 with h | h
        · omega
        · exact absurd h.symm he

/-- On a sorted record list, `#getTimeRangeByteOffsets` returns the first index with
time at least `lo` and the first index with time strictly above `hi`. -/
theorem getTimeRangeIndexes_spec (d : List Entry) (lo hi : Int)
    (hs : d.Pairwise (fun x y => x.time ≤ y.time)) :
    (getTimeRangeIndexes d lo hi).1 ≤ d.length ∧ (getTimeRangeIndexes d lo hi).2 ≤ d.length ∧
    (∀ i, i < (getTimeRangeIndexes d lo hi).1 → i < d.length →
      (d.getD i default).time < lo) ∧
    (∀ i, (getTimeRangeIndexes d lo hi).1 ≤ i → i < d.length →
      lo ≤ (d.getD i default).time) ∧
    (∀ i, i < (getTimeRangeIndexes d lo hi).2 → i < d.length →
      (d.getD i default).time ≤ hi) ∧
    (∀ i, (getTimeRangeIndexes d lo hi).2 ≤ i → i < d.length →
      hi < (d.getD i default).time) := by
  have hins_lo := getInsertionIndex_spec d lo hs
  have hins_hi := getInsertionIndex_spec d hi hs
  have hb := walkBackEqual_spec d lo hs (getInsertionIndex d lo) hins_lo.1
    (fun i hi => hins_lo.2.1 i hi (lt_of_lt_of_le hi hins_lo.1)) hins_lo.2.2
  have hf := walkForwardEqualGo_spec d hi hs (d.length - getInsertionIndex d hi)
    (getInsertionIndex d hi) hins_hi.1 (le_refl _)
    hins_hi.2.1 hins_hi.2.2
  have h1 : (getTimeRangeIndexes d lo hi).1 = walkBackEqual d lo (getInsertionIndex d lo) := rfl
  have h2 : (getTimeRangeIndexes d lo hi).2 =
      walkForwardEqualGo d hi (getInsertionIndex d hi) (d.length - getInsertionIndex d hi) := rfl
  rw [h1, h2]
  exact ⟨by omega, hf.2.1, hb.2.1, hb.2.2, hf.2.2.1, hf.2.2.2⟩

/-! ### Helper lemmas: a contiguous slice of a sorted list is a filter -/

/-- When a predicate is false before `i`, true on `[i, j)` and false from `j` on, the
slice `[i, j)` is the whole filter and the complement of the slice is the filter of the
negation. -/
theorem slice_eq_filter (d : List Entry) (p : Entry → Bool) (i j : Nat)
    (hjlen : j ≤ d.length) (hij : i ≤ j)
    (hA : ∀ idx, idx < i → idx < d.length → p (d.getD idx default) = false)
    (hB : ∀ idx, i ≤ idx → idx < j → p (d.getD idx default) = true)
    (hC : ∀ idx, j ≤ idx → idx < d.length → p (d.getD idx default) = false) :
    (d.drop i).take (j - i) = d.filter p ∧
    d.take i ++ d.drop j = d.filter (fun e => ! p e) := by
  have h2 : (d.drop i).drop (j - i) = d.drop j := by
    rw [List.drop_drop]
    congr 1
    omega
  have hd2 : d.drop i = (d.drop i).take (j - i) ++ d.drop j := by
    rw [← h2, List.take_append_drop]
  have hdecomp : d = d.take i ++ ((d.drop i).take (j - i) ++ d.drop j) := by
    rw [← hd2, List.take_append_drop]
  have hAmem : ∀ e ∈ d.take i, p e = false := by
    intro e he
    rcases List.mem_iff_getElem.mp he with ⟨m, hm, rfl⟩
    have hmi : m < i := by
      rw [List.length_take] at hm
      omega
    have hmlen : m < d.length := by
      rw [List.length_take] at hm
      omega
    rw [List.getElem_take]
    have := hA m hmi hmlen
    rwa [List.getD_eq_getElem _ _ hmlen] at this
  have hBmem : ∀ e ∈ (d.drop i).take (j - i), p e = true := by
    intro e he
    rcases List.mem_iff_getElem.mp he with ⟨m, hm, rfl⟩
    have hmlen : i + m < d.length := by
      rw [List.length_take, List.length_drop] at hm
      omega
    have hmj : i + m < j := by
      rw [List.length_take, List.length_drop] at hm
      omega
    rw [List.getElem_take, List.getElem_drop]
    have := hB (i + m) (by omega) hmj
    rwa [List.getD_eq_getElem _ _ hmlen] at this
  have hCmem : ∀ e ∈ d.drop j, p e = false := by
    intro e he
    rcases List.mem_iff_getElem.mp he with ⟨m, hm, rfl⟩
    have hmlen : j + m < d.length := by
      rw [List.length_drop] at hm
      omega
    rw [List.getElem_drop]
    have := hC (j + m) (by omega) hmlen
    rwa [List.getD_eq_getElem _ _ hmlen] at this
  constructor
  · conv_rhs => rw [hdecomp]
    rw [List.filter_append, List.filter_append]
    rw [List.filter_eq_nil_iff.mpr (by intro a ha; simp [hAmem a ha]),
      List.filter_eq_self.mpr hBmem,
      List.filter_eq_nil_iff.mpr (by intro a ha; simp [hCmem a ha])]
    simp
  · conv_rhs => rw [hdecomp]
    rw [List.filter_append, List.filter_append]
    rw [List.filter_eq_self.mpr (by intro a ha; simp [hAmem a ha]),
      List.filter_eq_nil_iff.mpr (by intro a ha; simp [hBmem a ha]),
      List.filter_eq_self.mpr (by intro a ha; simp [hCmem a ha])]
    simp

/-! ### Helper lemmas: select and delete on a loaded sorted bucket -/

/-- Loading an already-loaded bucket is the identity. -/
theorem loadData_of_some (b : ZektaTimeBucket) (d : List Entry) (h : b.data = some d) :
    b.loadData = b := by
  unfold ZektaTimeBucket.loadData
  rw [h]

theorem inRangeB_eq_false_left (lo hi : Int) (e : Entry) (h : e.time < lo) :
    inRangeB lo hi e = false := by
  unfold inRangeB
  have hd : decide (lo ≤ e.time) = false := decide_eq_false (by omega)
  rw [hd, Bool.false_and]

theorem inRangeB_eq_false_right (lo hi : Int) (e : Entry) (h : hi < e.time) :
    inRangeB lo hi e = false := by
  unfold inRangeB
  have hd : decide (e.time ≤ hi) = false := decide_eq_false (by omega)
  rw [hd, Bool.and_false]

theorem inRangeB_eq_true (lo hi : Int) (e : Entry) (h1 : lo ≤ e.time) (h2 : e.time ≤ hi) :
    inRangeB lo hi e = true := by
  unfold inRangeB
  rw [decide_eq_true h1, decide_eq_true h2]
  rfl

/-- Entries of a bucket missed by the range guard are all outside `[lo, hi]`. -/
theorem guard_all_out (b : ZektaTimeBucket) (d : List Entry) (lo hi : Int)
    (hrange : ∀ e ∈ d, b.fromTime ≤ e.time ∧ e.time < b.toTime)
    (hg : b.toTime ≤ lo ∨ hi < b.fromTime) :
    ∀ e ∈ d, inRangeB lo hi e = false := by
  intro e he
  rcases hrange e he with ⟨h1, h2⟩
  rcases hg with hg | hg
  · exact inRangeB_eq_false_left lo hi e (by omega)
  · exact inRangeB_eq_false_right lo hi e (by omega)

/-- The lower range index never exceeds the upper one when `lo ≤ hi`. -/
theorem getTimeRangeIndexes_le (d : List Entry) (lo hi : Int)
    (hs : d.Pairwise (fun x y => x.time ≤ y.time)) (hlh : lo ≤ hi) :
    (getTimeRangeIndexes d lo hi).1 ≤ (getTimeRangeIndexes d lo hi).2 := by
  have hspec := getTimeRangeIndexes_spec d lo hi hs
  by_contra hc
  push_neg at hc
  have hjlen : (getTimeRangeIndexes d lo hi).2 < d.length := by omega
  have ha := hspec.2.2.1 (getTimeRangeIndexes d lo hi).2 hc hjlen
  have hb := hspec.2.2.2.2.2 (getTimeRangeIndexes d lo hi).2 (le_refl _) hjlen
  omega

/-- The range slice of a sorted record list is exactly the filter by `[lo, hi]`, and
the complement of the slice is the filter by the negation. -/
theorem rangeSlice_eq_filter (d : List Entry) (lo hi : Int)
    (hs : d.Pairwise (fun x y => x.time ≤ y.time)) (hlh : lo ≤ hi) :
    (d.drop (getTimeRangeIndexes d lo hi).1).take
        ((getTimeRangeIndexes d lo hi).2 - (getTimeRangeIndexes d lo hi).1) =
      d.filter (inRangeB lo hi) ∧
    d.take (getTimeRangeIndexes d lo hi).1 ++ d.drop (getTimeRangeIndexes d lo hi).2 =
      d.filter (fun e => ! inRangeB lo hi e) := by
  have hspec := getTimeRangeIndexes_spec d lo hi hs
  refine slice_eq_filter d (inRangeB lo hi) _ _ hspec.2.1
    (getTimeRangeIndexes_le d lo hi hs hlh) ?_ ?_ ?_
  · intro idx h1x h2x
    exact inRangeB_eq_false_left lo hi _ (hspec.2.2.1 idx h1x h2x)
  · intro idx h1x h2x
    have hlen : idx < d.length := by
      have := hspec.2.1
      omega
    exact inRangeB_eq_true lo hi _ (hspec.2.2.2.1 idx h1x hlen)
      (hspec.2.2.2.2.1 idx h2x hlen)
  · intro idx h1x h2x
    exact inRangeB_eq_false_right lo hi _ (hspec.2.2.2.2.2 idx h1x h2x)

/-- Ascending `select` on a loaded sorted bucket returns exactly the entries in
`[lo, hi]`, in stored (ascending) order. -/
theorem select_loaded_asc (b : ZektaTimeBucket) (d : List Entry) (lo hi : Int)
    (hload : b.data = some d)
    (hs : d.Pairwise (fun x y => x.time ≤ y.time))
    (hrange : ∀ e ∈ d, b.fromTime ≤ e.time ∧ e.time < b.toTime)
    (hlh : lo ≤ hi) :
    (b.select lo hi true).1 = d.filter (inRangeB lo hi) := by
  unfold ZektaTimeBucket.select
  by_cases hg : b.toTime ≤ lo ∨ hi < b.fromTime
  · rw [if_pos hg]
    symm
    rw [List.filter_eq_nil_iff]
    intro e he
    rw [guard_all_out b d lo hi hrange hg e he]
    simp
  · rw [if_neg hg]
    rw [loadData_of_some b d hload]
    simp only [hload, Option.getD_some, if_true]
    exact (rangeSlice_eq_filter d lo hi hs hlh).1

/-- `delete` on a loaded sorted bucket keeps exactly the entries outside `[lo, hi]`. -/
theorem delete_loaded (b : ZektaTimeBucket) (d : List Entry) (lo hi : Int)
    (hload : b.data = some d)
    (hs : d.Pairwise (fun x y => x.time ≤ y.time))
    (hrange : ∀ e ∈ d, b.fromTime ≤ e.time ∧ e.time < b.toTime)
    (hlh : lo ≤ hi) :
    (b.delete lo hi).data = some (d.filter (fun e => ! inRangeB lo hi e)) := by
  unfold ZektaTimeBucket.delete
  by_cases hg : b.toTime ≤ lo ∨ hi < b.fromTime
  · rw [if_pos hg, hload]
    congr 1
    symm
    rw [List.filter_eq_self]
    intro e he
    rw [Bool.not_eq_true']
    exact guard_all_out b d lo hi hrange hg e he
  · rw [if_neg hg]
    rw [loadData_of_some b d hload]
    simp only [hload, Option.getD_some]
    split_ifs with hemp
    · rw [hload]
      congr 1
      symm
      rw [List.filter_eq_self]
      have hslice := (rangeSlice_eq_filter d lo hi hs hlh).1
      rw [hemp] at hslice
      simp only [Nat.sub_self, List.take_zero] at hslice
      intro e he
      rw [Bool.not_eq_true']
      exact Bool.eq_false_iff.mpr (List.filter_eq_nil_iff.mp hslice.symm e he)
    · show some _ = some _
      congr 1
      exact (rangeSlice_eq_filter d lo hi hs hlh).2

/-! ### Helper lemmas: descending select, fulfilled fan-out, push runs -/

/-- Descending bucket select is the reverse of ascending, on any bucket state. -/
theorem bucket_select_desc (b : ZektaTimeBucket) (lo hi : Int) :
    (b.select lo hi false).1 = ((b.select lo hi true).1).reverse := by
  unfold ZektaTimeBucket.select
  by_cases hg : b.toTime ≤ lo ∨ hi < b.fromTime
  · rw [if_pos hg, if_pos hg]
    rfl
  · rw [if_neg hg, if_neg hg]
    rfl

/-- The settled-results helper maps a list of fulfilled results back to its values. -/
theorem handle_all_fulfilled {ε α : Type} [Inhabited ε] [Inhabited α] (l : List α) :
    handlePromiseAllSettledResult (ε := ε) (l.map SettledResult.fulfilled) = .ok l := by
  unfold handlePromiseAllSettledResult
  have herr : (l.map (SettledResult.fulfilled (ε := ε))).filter SettledResult.isRejected = [] := by
    rw [List.filter_eq_nil_iff]
    intro a ha
    rcases List.mem_map.mp ha with ⟨v, _, rfl⟩
    simp [SettledResult.isRejected]
  simp only [herr, List.length_nil, if_pos rfl, List.map_map]
  rw [if_pos trivial]
  congr 1
  have hcomp : (SettledResult.valueD (ε := ε) ∘ SettledResult.fulfilled) = (id : α → α) := by
    funext v
    rfl
  rw [hcomp, List.map_id]

/-- Reversing the outer list and each inner list reverses the flattening. -/
theorem flatten_reverse_map {α β : Type} (f : α → List β) (l : List α) :
    (l.reverse.map fun a => (f a).reverse).flatten = (l.map f).flatten.reverse := by
  rw [List.map_reverse,
    show l.map (fun a => (f a).reverse) = (l.map f).map List.reverse from by
      rw [List.map_map]; rfl,
    ← List.reverse_flatten]

/-- Descending series select is the reverse of ascending, on any series state. -/
theorem series_select_desc (s : ZektaTimeSeries) (lo hi : Int) :
    s.select lo hi false = (s.select lo hi true).map List.reverse := by
  unfold ZektaTimeSeries.select
  have hfuse : ∀ (l : List ZektaTimeBucket) (asc : Bool),
      (l.map fun b => SettledResult.fulfilled (ε := String) (b.select lo hi asc).1) =
        ((l.map fun b => (b.select lo hi asc).1).map SettledResult.fulfilled) := by
    intro l asc
    rw [List.map_map]
    rfl
  show (handlePromiseAllSettledResult
      (((s.coveredBuckets lo hi).reverse).map
        fun b => SettledResult.fulfilled (ε := String) (b.select lo hi false).1)).map List.flatten =
    ((handlePromiseAllSettledResult
      ((s.coveredBuckets lo hi).map
        fun b => SettledResult.fulfilled (ε := String) (b.select lo hi true).1)).map List.flatten).map List.reverse
  rw [hfuse, hfuse, handle_all_fulfilled, handle_all_fulfilled]
  show Except.ok _ = Except.ok _
  congr 1
  rw [List.map_congr_left (fun b _ => bucket_select_desc b lo hi)]
  exact flatten_reverse_map (fun b => (b.select lo hi true).1) (s.coveredBuckets lo hi)

/-- Inserting an entry at a split point of a strictly sorted list keeps it strictly
sorted. -/
theorem insertAt_pairwise_lt (d : List Entry) (k : Nat) (e : Entry)
    (hs : d.Pairwise (fun x y => x.time < y.time))
    (h1 : ∀ i, i < k → i < d.length → (d.getD i default).time < e.time)
    (h2 : ∀ i, k ≤ i → i < d.length → e.time < (d.getD i default).time) :
    (insertAt d k e).Pairwise (fun x y => x.time < y.time) := by
  have htake : ∀ x ∈ d.take k, x.time < e.time := by
    intro x hx
    rcases List.mem_iff_getElem.mp hx with ⟨m, hm, rfl⟩
    have hmk : m < k := by
      rw [List.length_take] at hm
      omega
    have hmlen : m < d.length := by
      rw [List.length_take] at hm
      omega
    rw [List.getElem_take]
    have := h1 m hmk hmlen
    rwa [List.getD_eq_getElem _ _ hmlen] at this
  have hdrop : ∀ y ∈ d.drop k, e.time < y.time := by
    intro y hy
    rcases List.mem_iff_getElem.mp hy with ⟨m, hm, rfl⟩
    have hmlen : k + m < d.length := by
      rw [List.length_drop] at hm
      omega
    rw [List.getElem_drop]
    have := h2 (k + m) (by omega) hmlen
    rwa [List.getD_eq_getElem _ _ hmlen] at this
  unfold insertAt
  rw [List.pairwise_append]
  refine ⟨List.Pairwise.sublist (List.take_sublist k d) hs, ?_, ?_⟩
  · rw [List.pairwise_cons]
    exact ⟨hdrop, List.Pairwise.sublist (List.drop_sublist k d) hs⟩
  · intro x hx y hy
    rcases List.mem_cons.mp hy with rfl | hy'
    · exact htake x hx
    · exact lt_trans (htake x hx) (hdrop y hy')

/-- `#pushRaw` of a fresh time into a strictly sorted list: still strictly sorted and a
permutation of consing the new record. -/
theorem pushRaw_spec (d : List Entry) (t : Int) (v : List Nat)
    (hs : d.Pairwise (fun x y => x.time < y.time))
    (hnot : ∀ e ∈ d, e.time ≠ t) :
    (pushRaw d t v).Pairwise (fun x y => x.time < y.time) ∧
    (pushRaw d t v).Perm (⟨t, v⟩ :: d) := by
  have hle : d.Pairwise (fun x y => x.time ≤ y.time) := hs.imp le_of_lt
  have hins := getInsertionIndex_spec d t hle
  have hnotD : ∀ i, i < d.length → (d.getD i default).time ≠ t := by
    intro i hi
    rw [List.getD_eq_getElem _ _ hi]
    exact hnot _ (List.getElem_mem hi)
  constructor
  · refine insertAt_pairwise_lt d (getInsertionIndex d t) ⟨t, v⟩ hs ?_ ?_
    · intro i hik hilen
      have := hins.2.1 i hik hilen
      have := hnotD i hilen
      show (d.getD i default).time < t
      omega
    · intro i hik hilen
      have := hins.2.2 i hik hilen
      have := hnotD i hilen
      show t < (d.getD i default).time
      omega
  · unfold pushRaw insertAt
    refine List.Perm.trans List.perm_middle ?_
    rw [List.take_append_drop]

/-- Evaluating a valid `push` on a loaded bucket. -/
theorem push_loaded_ok (b : ZektaTimeBucket) (d : List Entry) (t : Int) (v : List Nat)
    (hload : b.data = some d) (hr : b.isTimeInRange t) (hv : v.length = b.valueByteLength) :
    b.push t v =
      (.ok (), { b with data := some (pushRaw d t v), requireFlush := true }) := by
  unfold ZektaTimeBucket.push
  rw [loadData_of_some b d hload]
  simp only [hload, Option.getD_some]
  rw [if_neg (not_not_intro hr), if_neg (not_not_intro hv)]

/-- A bucket is always loaded after `#loadData`. -/
theorem loadData_data_isSome (b : ZektaTimeBucket) : ∃ dd, b.loadData.data = some dd := by
  unfold ZektaTimeBucket.loadData
  cases hb : b.data with
  | some d0 => exact ⟨d0, hb⟩
  | none => exact ⟨b.file.getD [], rfl⟩

/-- `push` loads first, so pushing on a bucket and on its loaded form agree. -/
theorem push_loadData (b : ZektaTimeBucket) (t : Int) (v : List Nat) :
    b.loadData.push t v = b.push t v := by
  obtain ⟨dd, hdd⟩ := loadData_data_isSome b
  unfold ZektaTimeBucket.push
  rw [loadData_of_some _ dd hdd]

/-- Invariant of a run of valid `push` calls with pairwise fresh times on a loaded
bucket: every push succeeds, the data stays strictly sorted and accumulates exactly the
pushed records. -/
theorem pushAll_spec (V : Nat) :
    ∀ (ps : List Entry) (b : ZektaTimeBucket) (d : List Entry),
    b.data = some d → b.valueByteLength = V →
    d.Pairwise (fun x y => x.time < y.time) →
    (∀ e ∈ ps, b.isTimeInRange e.time) →
    (∀ e ∈ ps, e.value.length = V) →
    ((d ++ ps).map Entry.time).Nodup →
    ∃ b' d', ZektaTimeBucket.pushAll b ps = .ok b' ∧
      b'.id = b.id ∧ b'.valueByteLength = V ∧ b'.data = some d' ∧
      d'.Pairwise (fun x y => x.time < y.time) ∧ d'.Perm (d ++ ps) := by
  intro ps
  induction ps with
  | nil =>
    intro b d hload hV hs _ _ _
    exact ⟨b, d, rfl, rfl, hV, hload, hs, by simp⟩
  | cons e rest ih =>
    intro b d hload hV hs hr hv hnd
    -- split the no-duplicates hypothesis
    have hnd0 : ((d.map Entry.time) ++ (e.time :: rest.map Entry.time)).Nodup := by
      rw [List.map_append, List.map_cons] at hnd
      exact hnd
    rw [List.nodup_append] at hnd0
    have hfresh : ∀ x ∈ d, x.time ≠ e.time := by
      intro x hx hxe
      have hmem : x.time ∈ d.map Entry.time := List.mem_map_of_mem Entry.time hx
      have := hnd0.2.2 hmem
      rw [hxe] at this
      exact this (List.mem_cons_self _ _)
    have hpr := pushRaw_spec d e.time e.value hs hfresh
    -- re-establish no-duplicates for the grown data
    have hp1 : ((pushRaw d e.time e.value ++ rest).map Entry.time).Perm
        (e.time :: (d.map Entry.time ++ rest.map Entry.time)) := by
      rw [List.map_append]
      have hh : ((pushRaw d e.time e.value).map Entry.time).Perm
          (e.time :: d.map Entry.time) := hpr.2.map Entry.time
      exact (List.Perm.append_right _ hh).trans (by rw [List.cons_append])
    have hp2 : ((d ++ e :: rest).map Entry.time).Perm
        (e.time :: (d.map Entry.time ++ rest.map Entry.time)) := by
      rw [List.map_append, List.map_cons]
      exact List.perm_middle
    have hnd' : ((pushRaw d e.time e.value ++ rest).map Entry.time).Nodup :=
      hp1.nodup_iff.mpr (hp2.nodup_iff.mp hnd)
    -- run the remaining pushes
    obtain ⟨b', d', heq, hid, hV', hload', hs', hperm'⟩ :=
      ih { b with data := some (pushRaw d e.time e.value), requireFlush := true }
        (pushRaw d e.time e.value) rfl hV hpr.1
        (fun x hx => hr x (List.mem_cons_of_mem _ hx))
        (fun x hx => hv x (List.mem_cons_of_mem _ hx)) hnd'
    refine ⟨b', d', ?_, hid, hV', hload', hs', ?_⟩
    · rw [ZektaTimeBucket.pushAll,
        push_loaded_ok b d e.time e.value hload (hr e (List.mem_cons_self _ _))
          (by rw [hV]; exact hv e (List.mem_cons_self _ _))]
      exact heq
    · exact hperm'.trans ((List.Perm.append_right rest hpr.2).trans
        (by rw [List.cons_append]; exact List.perm_middle.symm))

/-- Pushing a nonempty batch starts by loading the bucket. -/
theorem pushAll_cons_eq (b : ZektaTimeBucket) (e : Entry) (rest : List Entry) :
    ZektaTimeBucket.pushAll b (e :: rest) = ZektaTimeBucket.pushAll b.loadData (e :: rest) := by
  simp only [ZektaTimeBucket.pushAll]
  rw [push_loadData]

/-- The 512-unit width of a bucket. -/
theorem getTimeFromId_succ (id : Int) : getTimeFromId id + 512 = getTimeFromId (id + 1) := by
  unfold getTimeFromId timeRange
  ring



/-! ### Helper lemmas: insert failure, fan-out counting, arena arithmetic, lower bounds -/

/-- Flushing a clean bucket never touches the file. -/
theorem flush_clean_noop (bb : ZektaTimeBucket) (u : Bool) (hf : bb.requireFlush = false) :
    (bb.flush u).1 = .ok () ∧ (bb.flush u).2.file = bb.file := by
  unfold ZektaTimeBucket.flush
  rw [hf]
  cases u <;> simp

/-- A failing insert loop leaves exactly the pushes of the longest valid prefix. -/
theorem insertLoop_error_spec (b : ZektaTimeBucket) :
    ∀ (es d : List Entry) (s : String),
    (b.insertLoop d es).1 = .error s →
    (b.insertLoop d es).2 =
      (es.takeWhile (entryValid b)).foldl (fun acc e => pushRaw acc e.time e.value) d := by
  intro es
  induction es with
  | nil =>
    intro d s herr
    exact absurd herr (by simp [ZektaTimeBucket.insertLoop])
  | cons e rest ih =>
    intro d s herr
    by_cases h1 : b.isTimeInRange e.time
    · by_cases h2 : e.value.length = b.valueByteLength
      · have hv : entryValid b e = true := by
          simp [entryValid, h1, h2]
        have hstep : b.insertLoop d (e :: rest) =
            b.insertLoop (pushRaw d e.time e.value) rest := by
          conv_lhs => rw [ZektaTimeBucket.insertLoop]
          rw [if_neg (not_not_intro h1), if_neg (not_not_intro h2)]
        rw [hstep] at herr ⊢
        rw [List.takeWhile_cons_of_pos hv, List.foldl_cons]
        exact ih (pushRaw d e.time e.value) s herr
      · have hv : entryValid b e = false := by
          simp [entryValid, h2]
        have hstep : b.insertLoop d (e :: rest) = (.error "Invalid value length.", d) := by
          conv_lhs => rw [ZektaTimeBucket.insertLoop]
          rw [if_neg (not_not_intro h1), if_pos h2]
        rw [hstep, List.takeWhile_cons_of_neg (by simp [hv])]
        rfl
    · have hv : entryValid b e = false := by
        simp [entryValid, h1]
      have hstep : b.insertLoop d (e :: rest) = (.error "Time out-of-range.", d) := by
        conv_lhs => rw [ZektaTimeBucket.insertLoop]
        rw [if_pos h1]
      rw [hstep, List.takeWhile_cons_of_neg (by simp [hv])]
      rfl

/-- The rejected-result filter carries exactly the rejection reasons, in order. -/
theorem filter_rejected_map_reason {ε α : Type} [Inhabited ε]
    (results : List (SettledResult ε α)) :
    (results.filter SettledResult.isRejected).map SettledResult.reasonD =
      rejectedReasons results := by
  induction results with
  | nil => rfl
  | cons r rest ih =>
    cases r with
    | fulfilled v =>
      simp only [rejectedReasons, List.filterMap_cons] at ih ⊢
      rw [List.filter_cons_of_neg (by simp [SettledResult.isRejected])]
      exact ih
    | rejected e =>
      simp only [rejectedReasons, List.filterMap_cons] at ih ⊢
      rw [List.filter_cons_of_pos (by simp [SettledResult.isRejected])]
      simp only [List.map_cons]
      rw [ih]
      rfl

/-- With no rejection, mapping out the (cast) values equals collecting the fulfilled
values. -/
theorem map_valueD_of_no_rejected {ε α : Type} [Inhabited α]
    (results : List (SettledResult ε α))
    (h : results.filter SettledResult.isRejected = []) :
    results.map SettledResult.valueD = results.filterMap SettledResult.fulfilledValue := by
  induction results with
  | nil => rfl
  | cons r rest ih =>
    cases r with
    | fulfilled v =>
      rw [List.filter_cons_of_neg (by simp [SettledResult.isRejected])] at h
      simp only [List.map_cons, List.filterMap_cons]
      rw [ih h]
      rfl
    | rejected e =>
      rw [List.filter_cons_of_pos (by simp [SettledResult.isRejected])] at h
      exact absurd h (by simp)

/-- The fuel search returns the least exponent at or above its start whose power of 4
reaches the target, provided the fuel reaches one such exponent. -/
theorem findExpAux_spec (target : Nat) :
    ∀ (fuel e : Nat),
    (∀ e', e' < e → 4 ^ e' < target) →
    (∃ e', e ≤ e' ∧ e' ≤ e + fuel ∧ target ≤ 4 ^ e') →
    target ≤ 4 ^ findExpAux target e fuel ∧
    (∀ e', e' < findExpAux target e fuel → 4 ^ e' < target) := by
  intro fuel
  induction fuel with
  | zero =>
    intro e hbelow hex
    obtain ⟨e', h1, h2, h3⟩ := hex
    have : e' = e := by omega
    subst this
    exact ⟨h3, hbelow⟩
  | succ fuel ih =>
    intro e hbelow hex
    rw [findExpAux]
    split_ifs with hhit
    · exact ⟨hhit, hbelow⟩
    · refine ih (e + 1) ?_ ?_
      · intro e' he'
        rcases Nat.lt_or_ge e' e with h | h
        · exact hbelow e' h
        · have : e' = e := by omega
          subst this
          omega
      · obtain ⟨e', h1, h2, h3⟩ := hex
        have hne : e' ≠ e := by
          intro hc
          subst hc
          omega
        exact ⟨e', by omega, by omega, h3⟩

/-- `ceilLog2Half` is exactly `⌈log2 n + 1/2⌉` for `n ≤ 2^63`: the least `e` with
`2·n² ≤ 4^e`. -/
theorem ceilLog2Half_spec (n : Nat) (hn : n ≤ 2 ^ 63) :
    2 * n * n ≤ 4 ^ ceilLog2Half n ∧
    (∀ e', e' < ceilLog2Half n → 4 ^ e' < 2 * n * n) := by
  unfold ceilLog2Half
  refine findExpAux_spec (2 * n * n) 64 0 (by omega) ⟨64, by omega, by omega, ?_⟩
  have h1 : n * n ≤ 2 ^ 63 * 2 ^ 63 := Nat.mul_le_mul hn hn
  have h2 : (4 : Nat) ^ 64 = 2 ^ 128 := by norm_num
  have h3 : (2 : Nat) ^ 63 * 2 ^ 63 = 2 ^ 126 := by norm_num
  have h4 : (2 : Nat) ^ 128 = 4 * 2 ^ 126 := by norm_num
  have h5 : 2 * n * n = 2 * (n * n) := by ring
  omega

/-- Below the 32-bit shift wrap (`⌈log2 n + 1/2⌉ ≤ 31`), the optimal buffer length is
the true power of two, it exceeds `n`, and the `min` against the `2^32` cap is inert. -/
theorem optimal_below_wrap (n : Nat) (hn1 : 1 ≤ n) (hcap : n ≤ maxBytes)
    (he : ceilLog2Half n ≤ 31) :
    min maxBytes (getOptimalBufferLength n) = 2 ^ ceilLog2Half n ∧
    n < 2 ^ ceilLog2Half n := by
  have hspec := ceilLog2Half_spec n (by unfold maxBytes at hcap; omega)
  have hopt : getOptimalBufferLength n = 2 ^ ceilLog2Half n := by
    unfold getOptimalBufferLength
    rw [Nat.mod_eq_of_lt (by omega)]
  have hlt : n < 2 ^ ceilLog2Half n := by
    by_contra hc
    push_neg at hc
    have h1 : 2 ^ ceilLog2Half n * 2 ^ ceilLog2Half n ≤ n * n := Nat.mul_le_mul hc hc
    have h2 : (4 : Nat) ^ ceilLog2Half n =
        2 ^ ceilLog2Half n * 2 ^ ceilLog2Half n := by
      rw [show (4 : Nat) = 2 * 2 from rfl, Nat.mul_pow]
    have h3 := hspec.1
    have h4 : 2 * n * n = 2 * (n * n) := by ring
    have h5 : 1 ≤ n * n := by simpa using Nat.mul_le_mul hn1 hn1
    omega
  have hle : 2 ^ ceilLog2Half n ≤ 2 ^ 31 := Nat.pow_le_pow_right (by omega) he
  have hmax : (2 : Nat) ^ 31 < maxBytes := by
    unfold maxBytes
    norm_num
  rw [hopt]
  exact ⟨by omega, hlt⟩

/-- Sortedness of an `Int` list makes the value-at-index probe monotone. -/
theorem ints_mono (l : List Int) (hs : l.Pairwise (· ≤ ·)) :
    ∀ i j, i ≤ j → j < l.length → l.getD i 0 ≤ l.getD j 0 := by
  intro i j hij hj
  rcases Nat.eq_or_lt_of_le hij with rfl | h
  · exact le_refl _
  · have hi : i < l.length := by omega
    have := List.pairwise_iff_getElem.mp hs i j hi hj h
    rwa [List.getD_eq_getElem _ _ hi, List.getD_eq_getElem _ _ hj]

/-- Inserting at a split point of a sorted `Int` list keeps it sorted. -/
theorem insertAtInt_pairwise (l : List Int) (k : Nat) (x : Int)
    (hs : l.Pairwise (· ≤ ·))
    (h1 : ∀ i, i < k → i < l.length → l.getD i 0 ≤ x)
    (h2 : ∀ i, k ≤ i → i < l.length → x ≤ l.getD i 0) :
    preservesOrder l x k := by
  have htake : ∀ y ∈ l.take k, y ≤ x := by
    intro y hy
    rcases List.mem_iff_getElem.mp hy with ⟨m, hm, rfl⟩
    have hmk : m < k := by
      rw [List.length_take] at hm
      omega
    have hmlen : m < l.length := by
      rw [List.length_take] at hm
      omega
    rw [List.getElem_take]
    have := h1 m hmk hmlen
    rwa [List.getD_eq_getElem _ _ hmlen] at this
  have hdrop : ∀ y ∈ l.drop k, x ≤ y := by
    intro y hy
    rcases List.mem_iff_getElem.mp hy with ⟨m, hm, rfl⟩
    have hmlen : k + m < l.length := by
      rw [List.length_drop] at hm
      omega
    rw [List.getElem_drop]
    have := h2 (k + m) (by omega) hmlen
    rwa [List.getD_eq_getElem _ _ hmlen] at this
  unfold preservesOrder insertAtInt
  rw [List.pairwise_append]
  refine ⟨List.Pairwise.sublist (List.take_sublist k l) hs, ?_, ?_⟩
  · rw [List.pairwise_cons]
    exact ⟨hdrop, List.Pairwise.sublist (List.drop_sublist k l) hs⟩
  · intro a ha y hy
    rcases List.mem_cons.mp hy with rfl | hy'
    · exact htake a ha
    · exact le_trans (htake a ha) (hdrop y hy')

/-- An order-preserving insertion position within the list never precedes an element
strictly below the key. -/
theorem preservesOrder_key_le (l : List Int) (x : Int) (k : Nat)
    (hp : preservesOrder l x k) (hk : k < l.length) :
    x ≤ l.getD k 0 := by
  unfold preservesOrder insertAtInt at hp
  rw [List.pairwise_append] at hp
  have hhead : l.getD k 0 ∈ l.drop k := by
    rw [List.getD_eq_getElem _ _ hk]
    have h0 : 0 < (l.drop k).length := by
      rw [List.length_drop]
      omega
    have : (l.drop k)[0] = l[k] := by
      rw [List.getElem_drop]
      simp
    rw [← this]
    exact List.getElem_mem h0
  exact (List.pairwise_cons.mp hp.2.1).1 _ hhead

/-! ### The claims -/

/-- Claim C1: pushing any batch of records with pairwise-distinct in-range times and
valid value lengths into a fresh empty bucket succeeds, and a subsequent ascending
`select` over a range covering the whole bucket returns exactly those records sorted
strictly ascending by time. -/
theorem claim_C1 (id : Int) (V : Nat) (ps : List Entry) (lo hi : Int)
    (hnd : (ps.map Entry.time).Nodup)
    (hr : ∀ e ∈ ps, (ZektaTimeBucket.mkBucket id V none).isTimeInRange e.time)
    (hv : ∀ e ∈ ps, e.value.length = V)
    (hlo : lo ≤ getTimeFromId id) (hhi : getTimeFromId (id + 1) ≤ hi) :
    ∃ b', ZektaTimeBucket.pushAll (ZektaTimeBucket.mkBucket id V none) ps = .ok b' ∧
      ((b'.select lo hi true).1).Perm ps ∧
      ((b'.select lo hi true).1).Pairwise (fun x y => x.time < y.time) := by
  have hwidth := getTimeFromId_succ id
  cases ps with
  | nil =>
    refine ⟨ZektaTimeBucket.mkBucket id V none, rfl, ?_⟩
    have hsel : (((ZektaTimeBucket.mkBucket id V none).select lo hi true)).1 = [] := by
      unfold ZektaTimeBucket.select
      rw [if_neg ?hg]
      · rfl
      case hg =>
        intro hcon
        rcases hcon with h | h
        · have h' : getTimeFromId (id + 1) ≤ lo := h
          omega
        · have h' : hi < getTimeFromId id := h
          omega
    rw [hsel]
    exact ⟨List.Perm.nil, List.Pairwise.nil⟩
  | cons e rest =>
    have hload0 : (ZektaTimeBucket.mkBucket id V none).loadData.data = some [] := rfl
    obtain ⟨b', d', heq, hid, hV', hload', hs', hperm'⟩ :=
      pushAll_spec V (e :: rest) (ZektaTimeBucket.mkBucket id V none).loadData [] hload0 rfl
        List.Pairwise.nil (fun x hx => hr x hx) (fun x hx => hv x hx) (by simpa using hnd)
    have hid' : b'.id = id := hid
    refine ⟨b', by rw [pushAll_cons_eq]; exact heq, ?_⟩
    have hperm : d'.Perm (e :: rest) := hperm'.trans (by simp)
    have hrange' : ∀ x ∈ d', b'.fromTime ≤ x.time ∧ x.time < b'.toTime := by
      intro x hx
      have hxp : x ∈ e :: rest := hperm.mem_iff.mp hx
      have hxr := hr x hxp
      unfold ZektaTimeBucket.fromTime ZektaTimeBucket.toTime
      rw [hid']
      exact hxr
    have hlh : lo ≤ hi := by omega
    have hsel := select_loaded_asc b' d' lo hi hload' (hs'.imp le_of_lt) hrange' hlh
    have hall : d'.filter (inRangeB lo hi) = d' := by
      rw [List.filter_eq_self]
      intro x hx
      have hb := hrange' x hx
      unfold ZektaTimeBucket.fromTime ZektaTimeBucket.toTime at hb
      rw [hid'] at hb
      exact inRangeB_eq_true lo hi x (by omega) (by omega)
    rw [hsel, hall]
    exact ⟨hperm, hs'⟩

/-- Witness for C1 at a concrete input: two pushes into bucket 0 with value size 1. -/
theorem claim_C1_witness :
    ∃ b', ZektaTimeBucket.pushAll (ZektaTimeBucket.mkBucket 0 1 none)
        [⟨3, [5]⟩, ⟨1, [7]⟩] = .ok b' ∧
      ((b'.select 0 512 true).1).Perm [⟨3, [5]⟩, ⟨1, [7]⟩] ∧
      ((b'.select 0 512 true).1).Pairwise (fun x y => x.time < y.time) :=
  claim_C1 0 1 [⟨3, [5]⟩, ⟨1, [7]⟩] 0 512 (by decide) (by decide) (by decide)
    (by decide) (by decide)

/-- Claim C2: on a loaded bucket (sorted, with all entry times inside the bucket's
range) and bounds `lo ≤ hi`, ascending `select` returns exactly the stored entries with
`lo ≤ t ≤ hi` — the filter of the stored list, a contiguous slice in ascending stored
order, both endpoints inclusive across equal-time runs — and `delete` keeps exactly the
entries outside `[lo, hi]`. -/
theorem claim_C2 (b : ZektaTimeBucket) (d : List Entry) (lo hi : Int)
    (hload : b.data = some d)
    (hs : d.Pairwise (fun x y => x.time ≤ y.time))
    (hrange : ∀ e ∈ d, b.fromTime ≤ e.time ∧ e.time < b.toTime)
    (hlh : lo ≤ hi) :
    (b.select lo hi true).1 = d.filter (inRangeB lo hi) ∧
    (b.delete lo hi).data = some (d.filter fun e => ! inRangeB lo hi e) :=
  ⟨select_loaded_asc b d lo hi hload hs hrange hlh,
   delete_loaded b d lo hi hload hs hrange hlh⟩

/-- Witness for C2 at a concrete input: three equal-time entries at `t = 5` and the
range `[5, 5]` — `select` returns all three, `delete` removes all three. -/
theorem claim_C2_witness :
    ((ZektaTimeBucket.mk 0 1 (some [⟨5, [1]⟩, ⟨5, [2]⟩, ⟨5, [3]⟩]) false none).select
        5 5 true).1 =
      ([⟨5, [1]⟩, ⟨5, [2]⟩, ⟨5, [3]⟩] : List Entry).filter (inRangeB 5 5) ∧
    ((ZektaTimeBucket.mk 0 1 (some [⟨5, [1]⟩, ⟨5, [2]⟩, ⟨5, [3]⟩]) false none).delete
        5 5).data =
      some (([⟨5, [1]⟩, ⟨5, [2]⟩, ⟨5, [3]⟩] : List Entry).filter fun e => ! inRangeB 5 5 e) :=
  claim_C2 _ [⟨5, [1]⟩, ⟨5, [2]⟩, ⟨5, [3]⟩] 5 5 rfl (by decide) (by decide) (by decide)

/-- Claim C8: for every single bucket and every series state, descending `select` over
a range returns exactly the reverse of ascending `select` over the same range. -/
theorem claim_C8 :
    (∀ (b : ZektaTimeBucket) (lo hi : Int),
      (b.select lo hi false).1 = ((b.select lo hi true).1).reverse) ∧
    (∀ (s : ZektaTimeSeries) (lo hi : Int),
      s.select lo hi false = (s.select lo hi true).map List.reverse) :=
  ⟨bucket_select_desc, series_select_desc⟩

/-- Claim C3 (amended): after any `flush` that runs with the dirty flag set — as it is
after every successful mutating operation — the call succeeds, the file holds exactly
the in-memory records (and is removed when they are empty), the flag is cleared, and
the data is released exactly when `unload` was requested. -/
theorem claim_C3 (b : ZektaTimeBucket) (d : List Entry) (unload : Bool)
    (hload : b.data = some d) (hdirty : b.requireFlush = true) :
    (b.flush unload).1 = .ok () ∧
    (b.flush unload).2.file = (if d.length = 0 then none else some d) ∧
    (b.flush unload).2.requireFlush = false ∧
    (b.flush unload).2.data = (if unload then none else some d) := by
  unfold ZektaTimeBucket.flush
  rw [hdirty, if_pos rfl, hload]
  cases unload <;> simp


/-- Witness for C3: flushing a dirty single-entry bucket writes the file. -/
theorem claim_C3_witness :
    ((ZektaTimeBucket.mk 0 1 (some [⟨1, [9]⟩]) true none).flush false).1 = .ok () ∧
    ((ZektaTimeBucket.mk 0 1 (some [⟨1, [9]⟩]) true none).flush false).2.file =
      (if ([⟨1, [9]⟩] : List Entry).length = 0 then none else some [⟨1, [9]⟩]) ∧
    ((ZektaTimeBucket.mk 0 1 (some [⟨1, [9]⟩]) true none).flush false).2.requireFlush =
      false ∧
    ((ZektaTimeBucket.mk 0 1 (some [⟨1, [9]⟩]) true none).flush false).2.data =
      (if false then none else some [⟨1, [9]⟩]) :=
  claim_C3 (ZektaTimeBucket.mk 0 1 (some [⟨1, [9]⟩]) true none) [⟨1, [9]⟩] false rfl rfl

/-- Counterexample to C3 as stated: an `insert` whose second-in-time entry is out of
range writes its first entry and fails without setting the dirty flag; the following
`flush` succeeds but leaves no file, although the in-memory data is nonempty — the file
does not equal `data[0..length]` after a successful flush. -/
theorem claim_C3_counterexample :
    (((ZektaTimeBucket.mkBucket 0 1 none).insert [⟨600, [8]⟩, ⟨0, [7]⟩]).2.flush false).1 =
      .ok () ∧
    (((ZektaTimeBucket.mkBucket 0 1 none).insert [⟨600, [8]⟩, ⟨0, [7]⟩]).2.flush
        false).2.data = some [⟨0, [7]⟩] ∧
    (((ZektaTimeBucket.mkBucket 0 1 none).insert [⟨600, [8]⟩, ⟨0, [7]⟩]).2.flush
        false).2.file = none := by decide


/-- Claim C4 (amended): on a loaded bucket, a successful `push` always sets the dirty
flag; a successful `insert` sets it exactly when the batch is nonempty; `delete` sets
it exactly when it removed at least one entry; `drop` sets it exactly when the bucket
was nonempty; in every no-op case the flag is left unchanged rather than set. -/
theorem claim_C4 (b : ZektaTimeBucket) (d : List Entry) (hload : b.data = some d)
    (hs : d.Pairwise (fun x y => x.time ≤ y.time)) :
    (∀ t v, (b.push t v).1 = .ok () → (b.push t v).2.requireFlush = true) ∧
    (∀ entries, (b.insert entries).1 = .ok () →
      (b.insert entries).2.requireFlush = (b.requireFlush || !entries.isEmpty)) ∧
    (∀ lo hi, (b.delete lo hi).requireFlush =
      (b.requireFlush || decide ((b.delete lo hi).data ≠ some d))) ∧
    b.drop.requireFlush = (b.requireFlush || !d.isEmpty) := by
  refine ⟨?_, ?_, ?_, ?_⟩
  · intro t v hok
    unfold ZektaTimeBucket.push at hok ⊢
    rw [loadData_of_some b d hload] at hok ⊢
    simp only [hload, Option.getD_some] at hok ⊢
    by_cases h1 : b.isTimeInRange t
    · rw [if_neg (not_not_intro h1)] at hok ⊢
      by_cases h2 : v.length ≠ b.valueByteLength
      · rw [if_pos h2] at hok
        exact absurd hok (by simp)
      · rw [if_neg h2]
    · rw [if_pos h1] at hok
      exact absurd hok (by simp)
  · intro entries hok
    unfold ZektaTimeBucket.insert at hok ⊢
    rw [loadData_of_some b d hload] at hok ⊢
    simp only [hload, Option.getD_some] at hok ⊢
    rcases entries with _ | ⟨e, rest⟩
    · simp
    · rw [if_neg (by simp)] at hok ⊢
      rcases hloop : b.insertLoop d (ZektaTimeBucket.sortTimeSeriesEntries (e :: rest)) with
        ⟨r, d2⟩
      rcases r with s | r
      · rw [hloop] at hok
        exact absurd hok (by simp)
      · simp
  · intro lo hi
    unfold ZektaTimeBucket.delete
    by_cases hg : b.toTime ≤ lo ∨ hi < b.fromTime
    · rw [if_pos hg]
      simp [hload]
    · rw [if_neg hg, loadData_of_some b d hload]
      simp only [hload, Option.getD_some]
      split_ifs with hemp
      · simp [hload]
      · have hspec := getTimeRangeIndexes_spec d lo hi hs
        have hne : d.take (getTimeRangeIndexes d lo hi).1 ++
            d.drop (getTimeRangeIndexes d lo hi).2 ≠ d := by
          intro hcon
          have hlen := congrArg List.length hcon
          rw [List.length_append, List.length_take, List.length_drop] at hlen
          have h1 := hspec.1
          have h2 := hspec.2.1
          omega
        simp [hne]
  · unfold ZektaTimeBucket.drop
    rw [loadData_of_some b d hload]
    simp only [hload, Option.getD_some]
    split_ifs with hemp
    · have : d = [] := List.length_eq_zero.mp hemp
      subst this
      simp
    · have : d ≠ [] := fun hc => hemp (by rw [hc]; rfl)
      simp [this]


/-- Witness for C4: a loaded one-entry bucket. -/
theorem claim_C4_witness :
    (∀ t v, ((ZektaTimeBucket.mk 0 1 (some [⟨5, [1]⟩]) false none).push t v).1 = .ok () →
      ((ZektaTimeBucket.mk 0 1 (some [⟨5, [1]⟩]) false none).push t v).2.requireFlush =
        true) ∧
    (∀ entries,
      ((ZektaTimeBucket.mk 0 1 (some [⟨5, [1]⟩]) false none).insert entries).1 = .ok () →
      ((ZektaTimeBucket.mk 0 1 (some [⟨5, [1]⟩]) false none).insert
          entries).2.requireFlush =
        ((ZektaTimeBucket.mk 0 1 (some [⟨5, [1]⟩]) false none).requireFlush ||
          !entries.isEmpty)) ∧
    (∀ lo hi, ((ZektaTimeBucket.mk 0 1 (some [⟨5, [1]⟩]) false none).delete
        lo hi).requireFlush =
      ((ZektaTimeBucket.mk 0 1 (some [⟨5, [1]⟩]) false none).requireFlush ||
        decide (((ZektaTimeBucket.mk 0 1 (some [⟨5, [1]⟩]) false none).delete
            lo hi).data ≠ some [⟨5, [1]⟩]))) ∧
    (ZektaTimeBucket.mk 0 1 (some [⟨5, [1]⟩]) false none).drop.requireFlush =
      ((ZektaTimeBucket.mk 0 1 (some [⟨5, [1]⟩]) false none).requireFlush ||
        !([⟨5, [1]⟩] : List Entry).isEmpty) :=
  claim_C4 (ZektaTimeBucket.mk 0 1 (some [⟨5, [1]⟩]) false none) [⟨5, [1]⟩] rfl
    (by decide)

/-- Counterexample to C4 as stated: an empty-batch insert, a no-match delete and a drop
of an empty bucket all complete successfully yet leave the dirty flag clear. -/
theorem claim_C4_counterexample :
    ((ZektaTimeBucket.mk 0 1 (some []) false none).insert []).1 = .ok () ∧
    ((ZektaTimeBucket.mk 0 1 (some []) false none).insert []).2.requireFlush = false ∧
    ((ZektaTimeBucket.mk 0 1 (some [⟨5, [1]⟩]) false none).delete 100 200).requireFlush =
      false ∧
    (ZektaTimeBucket.mk 0 1 (some []) false none).drop.requireFlush = false := by decide

/-- Claim C5, evaluated at the failing inputs: a fresh (resizable-backed) arena rejects
`resize(2^32 + 1)` with the size-limit error, but an arena wrapping a plain
non-resizable byte region (as produced by loading a bucket file) misses that check:
wrapping 2 bytes, the same call succeeds silently, ending with logical length
`2^32 + 1` above its 2-byte replacement capacity, and wrapping 10 bytes it fails — with
the `RangeError` of the byte copy into the undersized replacement, after the old buffer
is already discarded, not with the capacity error the claim requires. -/
theorem claim_C5 :
    ResizeableBuffer.fresh.resize (2 ^ 32 + 1) = .error "Size limit reached." ∧
    (ResizeableBuffer.ofFileBytes 2).resize (2 ^ 32 + 1) =
      .ok { resizable := true, maxByteLength := maxBytes, byteLength := 2,
            length := 2 ^ 32 + 1 } ∧
    (ResizeableBuffer.ofFileBytes 10).resize (2 ^ 32 + 1) =
      .error "RangeError: offset is out of bounds." := by
  refine ⟨by decide, by decide, by decide⟩

/-- Claim C6 (amended): growing a buffer to `new_len ≤ 2^32` below the 32-bit shift
wrap (`⌈log2 new_len + 0.5⌉ ≤ 31`, i.e. any arena under about 1.5 GiB) succeeds
whatever the backing buffer, sets the logical length to `new_len`, and sets the
capacity to exactly `2^⌈log2 new_len + 0.5⌉` — with no lower clamp at 256 — which is at
least `new_len` and strictly above the old capacity.  A resizable-backed arena succeeds
for every `new_len ≤ 2^32`, with capacity `min(2^32, 2^(⌈log2 new_len + 0.5⌉ mod 32))`
(the JavaScript shift, which in the wrap zone can shrink the capacity); a
non-resizable-backed arena in the wrap zone instead throws a `RangeError` whenever the
wrapped replacement is smaller than the old contents.  A resize within the current
capacity always succeeds and leaves the capacity unchanged. -/
theorem claim_C6 (buf : ResizeableBuffer) (n : Nat)
    (hinv : buf.resizable = true →
      buf.maxByteLength = maxBytes ∧ buf.byteLength ≤ maxBytes)
    (hgrow : buf.byteLength < n) (hcap : n ≤ maxBytes) :
    (ceilLog2Half n ≤ 31 →
      ∃ buf', buf.resize n = .ok buf' ∧ buf'.length = n ∧
        buf'.byteLength = 2 ^ ceilLog2Half n ∧ n ≤ buf'.byteLength ∧
        buf.byteLength < buf'.byteLength) ∧
    (buf.resizable = true →
      ∃ buf', buf.resize n = .ok buf' ∧ buf'.length = n ∧
        buf'.byteLength = min maxBytes (getOptimalBufferLength n)) ∧
    (∀ m, m ≤ buf.byteLength →
      ∃ buf2, buf.resize m = .ok buf2 ∧ buf2.length = m ∧
        buf2.byteLength = buf.byteLength) := by
  have hn1 : 1 ≤ n := by omega
  refine ⟨?_, ?_, ?_⟩
  · intro he
    obtain ⟨heq, hlt⟩ := optimal_below_wrap n hn1 hcap he
    cases hb : buf.resizable with
    | true =>
      obtain ⟨hmax, hble⟩ := hinv hb
      refine ⟨{ buf with
                  byteLength := min buf.maxByteLength (getOptimalBufferLength n),
                  length := n },
        ?_, rfl, ?_, ?_, ?_⟩
      · unfold ResizeableBuffer.resize
        rw [if_pos hb, if_neg (by rw [hmax]; omega), if_pos hgrow]
      · show min buf.maxByteLength (getOptimalBufferLength n) = _
        rw [hmax]
        exact heq
      · show n ≤ min buf.maxByteLength (getOptimalBufferLength n)
        rw [hmax, heq]
        omega
      · show buf.byteLength < min buf.maxByteLength (getOptimalBufferLength n)
        rw [hmax, heq]
        omega
    | false =>
      refine ⟨{ resizable := true, maxByteLength := maxBytes,
                byteLength := min maxBytes (getOptimalBufferLength n), length := n },
        ?_, rfl, heq, ?_, ?_⟩
      · unfold ResizeableBuffer.resize
        rw [if_neg (by rw [hb]; simp), if_pos hgrow, if_neg (by rw [heq]; omega)]
      · show n ≤ min maxBytes (getOptimalBufferLength n)
        rw [heq]
        omega
      · show buf.byteLength < min maxBytes (getOptimalBufferLength n)
        rw [heq]
        omega
  · intro hb
    obtain ⟨hmax, hble⟩ := hinv hb
    refine ⟨{ buf with
                byteLength := min buf.maxByteLength (getOptimalBufferLength n),
                length := n },
      ?_, rfl, ?_⟩
    · unfold ResizeableBuffer.resize
      rw [if_pos hb, if_neg (by rw [hmax]; omega), if_pos hgrow]
    · show min buf.maxByteLength (getOptimalBufferLength n) = _
      rw [hmax]
  · intro m hm
    cases hb : buf.resizable with
    | true =>
      obtain ⟨hmax, hble⟩ := hinv hb
      refine ⟨{ buf with length := m }, ?_, rfl, rfl⟩
      unfold ResizeableBuffer.resize
      rw [if_pos hb, if_neg (by omega), if_neg (by omega)]
    | false =>
      refine ⟨{ buf with length := m }, ?_, rfl, rfl⟩
      unfold ResizeableBuffer.resize
      rw [if_neg (by rw [hb]; simp), if_neg (by omega)]

/-- Witness for C6: growing a fresh arena to 300 bytes. -/
theorem claim_C6_witness :
    (ceilLog2Half 300 ≤ 31 →
      ∃ buf', ResizeableBuffer.fresh.resize 300 = .ok buf' ∧ buf'.length = 300 ∧
        buf'.byteLength = 2 ^ ceilLog2Half 300 ∧ 300 ≤ buf'.byteLength ∧
        ResizeableBuffer.fresh.byteLength < buf'.byteLength) ∧
    (ResizeableBuffer.fresh.resizable = true →
      ∃ buf', ResizeableBuffer.fresh.resize 300 = .ok buf' ∧ buf'.length = 300 ∧
        buf'.byteLength = min maxBytes (getOptimalBufferLength 300)) ∧
    (∀ m, m ≤ ResizeableBuffer.fresh.byteLength →
      ∃ buf2, ResizeableBuffer.fresh.resize m = .ok buf2 ∧ buf2.length = m ∧
        buf2.byteLength = ResizeableBuffer.fresh.byteLength) :=
  claim_C6 ResizeableBuffer.fresh 300 (by decide) (by decide) (by decide)

/-- Counterexample to C6 as stated: a buffer wrapping a 10-byte file grows on
`resize(20)` to capacity 32, not the 256 that the `[256, 2^32]` clamp of the claim's
formula demands; and at `resize(2^31 + 8)` on a 2^31-byte arena the 32-bit shift wraps,
shrinking the capacity to 1 byte — capacity does decrease. -/
theorem claim_C6_counterexample :
    (ResizeableBuffer.ofFileBytes 10).resize 20 =
      .ok { resizable := true, maxByteLength := maxBytes, byteLength := 32,
            length := 20 } ∧
    specNextCapacityClamped 20 = 256 ∧ (32 : Nat) ≠ 256 ∧
    ((ResizeableBuffer.mk true maxBytes (2 ^ 31) (2 ^ 31)).resize (2 ^ 31 + 8)).map
        ResizeableBuffer.byteLength = .ok 1 := by
  refine ⟨by decide, by decide, by decide, by decide⟩

/-- Claim C7 (amended): on a sorted collection, `binarySearch` returns an index in
`[0, length]` at which inserting the key preserves the order; whenever no element
equals the key this index is the smallest (indeed the only) order-preserving
position. -/
theorem claim_C7 (l : List Int) (x : Int) (hs : l.Pairwise (· ≤ ·)) :
    binarySearch l.length (fun i => l.getD i 0 - x) ≤ l.length ∧
    preservesOrder l x (binarySearch l.length (fun i => l.getD i 0 - x)) ∧
    (x ∉ l → ∀ j, preservesOrder l x j →
      binarySearch l.length (fun i => l.getD i 0 - x) ≤ j) := by
  have hspec : binarySearch l.length (fun i => l.getD i 0 - x) ≤ l.length ∧
      (∀ i, i < binarySearch l.length (fun i => l.getD i 0 - x) → i < l.length →
        l.getD i 0 ≤ x) ∧
      (∀ i, binarySearch l.length (fun i => l.getD i 0 - x) ≤ i → i < l.length →
        x ≤ l.getD i 0) :=
    binarySearch_spec (fun i => l.getD i 0) x l.length (ints_mono l hs)
  refine ⟨hspec.1, ?_, ?_⟩
  · exact insertAtInt_pairwise l _ x hs
      (fun i hik hilen => hspec.2.1 i hik hilen)
      (fun i hik hilen => hspec.2.2 i hik hilen)
  · intro hnot j hj
    by_contra hc
    push_neg at hc
    have hjlen : j < l.length := by omega
    have hjx : l.getD j 0 ≤ x := hspec.2.1 j hc hjlen
    have hne : l.getD j 0 ≠ x := by
      intro hcon
      apply hnot
      rw [← hcon, List.getD_eq_getElem _ _ hjlen]
      exact List.getElem_mem hjlen
    have := preservesOrder_key_le l x j hj hjlen
    omega


/-- Witness for C7: searching 2 in the sorted list `[1, 3]`. -/
theorem claim_C7_witness :
    binarySearch ([1, 3] : List Int).length (fun i => ([1, 3] : List Int).getD i 0 - 2) ≤
      ([1, 3] : List Int).length ∧
    preservesOrder [1, 3] 2
      (binarySearch ([1, 3] : List Int).length
        (fun i => ([1, 3] : List Int).getD i 0 - 2)) ∧
    ((2 : Int) ∉ ([1, 3] : List Int) → ∀ j, preservesOrder [1, 3] 2 j →
      binarySearch ([1, 3] : List Int).length
        (fun i => ([1, 3] : List Int).getD i 0 - 2) ≤ j) :=
  claim_C7 [1, 3] 2 (by decide)

/-- Counterexample to C7 as stated: over `[5, 5, 5]` with key 5 the source returns the
zero-comparison midpoint 1, yet inserting at position 0 also preserves the order, so
the returned index is not the smallest order-preserving one. -/
theorem claim_C7_counterexample :
    ¬ (∀ j, preservesOrder [5, 5, 5] 5 j →
        binarySearch 3 (fun i => ([5, 5, 5] : List Int).getD i 0 - 5) ≤ j) := by
  intro h
  have h0 := h 0 (by decide)
  rw [show binarySearch 3 (fun i => ([5, 5, 5] : List Int).getD i 0 - 5) = 1 from by
    decide] at h0
  omega

/-- Claim C9: the settled fan-out helper returns the success values in order when
nothing was rejected, rethrows the single rejection reason when exactly one sub-result
failed, and throws an aggregate of all reasons when two or more failed. -/
theorem claim_C9 {ε α : Type} [Inhabited ε] [Inhabited α]
    (results : List (SettledResult ε α)) :
    (rejectedReasons results = [] →
      handlePromiseAllSettledResult results =
        .ok (results.filterMap SettledResult.fulfilledValue)) ∧
    (∀ e, rejectedReasons results = [e] →
      handlePromiseAllSettledResult results = .error (.single e)) ∧
    (2 ≤ (rejectedReasons results).length →
      handlePromiseAllSettledResult results =
        .error (.aggregate (rejectedReasons results))) := by
  have hlen : (results.filter SettledResult.isRejected).length =
      (rejectedReasons results).length := by
    rw [← filter_rejected_map_reason results, List.length_map]
  refine ⟨?_, ?_, ?_⟩
  · intro h0
    have hnil : results.filter SettledResult.isRejected = [] := by
      rw [← List.length_eq_zero, hlen, h0]
      rfl
    simp only [handlePromiseAllSettledResult]
    rw [if_pos (by rw [hnil]; rfl)]
    rw [map_valueD_of_no_rejected results hnil]
  · intro e h1
    have hone : (results.filter SettledResult.isRejected).length = 1 := by
      rw [hlen, h1]
      rfl
    obtain ⟨x, hx⟩ := List.length_eq_one.mp hone
    have hxr : x.reasonD = e := by
      have hmr := filter_rejected_map_reason results
      rw [hx, h1] at hmr
      simpa using hmr
    simp only [handlePromiseAllSettledResult]
    rw [if_neg (by omega), if_pos hone, hx]
    simp [hxr]
  · intro h2
    have hge : 2 ≤ (results.filter SettledResult.isRejected).length := by omega
    simp only [handlePromiseAllSettledResult]
    rw [if_neg (by omega), if_neg (by omega)]
    rw [filter_rejected_map_reason results]

/-- Witness for C9: all three failure counts at concrete settled-result lists. -/
theorem claim_C9_witness :
    handlePromiseAllSettledResult (ε := Nat) (α := Nat) [.fulfilled 1, .fulfilled 2] =
      .ok (([.fulfilled 1, .fulfilled 2] : List (SettledResult Nat Nat)).filterMap
        SettledResult.fulfilledValue) ∧
    handlePromiseAllSettledResult (ε := Nat) (α := Nat) [.fulfilled 1, .rejected 7] =
      .error (.single 7) ∧
    handlePromiseAllSettledResult (ε := Nat) (α := Nat) [.rejected 6, .rejected 7] =
      .error (.aggregate (rejectedReasons
        ([.rejected 6, .rejected 7] : List (SettledResult Nat Nat)))) :=
  ⟨(claim_C9 [.fulfilled 1, .fulfilled 2]).1 (by decide),
   (claim_C9 [.fulfilled 1, .rejected 7]).2.1 7 (by decide),
   (claim_C9 [.rejected 6, .rejected 7]).2.2 (by decide)⟩

/-- Claim C10: when `insert` fails on some entry, the batch was first sorted by time,
every entry preceding the first invalid one in that sorted order has been written into
the in-memory data and remains there, yet the dirty flag is not set, so a subsequent
`flush` succeeds without touching the file. -/
theorem claim_C10 (b : ZektaTimeBucket) (d entries : List Entry) (s : String)
    (hload : b.data = some d) (hclean : b.requireFlush = false)
    (herr : (b.insert entries).1 = .error s) :
    (b.insert entries).2.data =
      some (((ZektaTimeBucket.sortTimeSeriesEntries entries).takeWhile
          (entryValid b)).foldl (fun acc e => pushRaw acc e.time e.value) d) ∧
    (b.insert entries).2.requireFlush = false ∧
    (∀ u, ((b.insert entries).2.flush u).1 = .ok () ∧
      ((b.insert entries).2.flush u).2.file = b.file) := by
  unfold ZektaTimeBucket.insert at herr ⊢
  rw [loadData_of_some b d hload] at herr ⊢
  simp only [hload, Option.getD_some] at herr ⊢
  rcases entries with _ | ⟨e, rest⟩
  · exact absurd herr (by simp)
  · rw [if_neg (by simp)] at herr ⊢
    rcases hloop : b.insertLoop d (ZektaTimeBucket.sortTimeSeriesEntries (e :: rest)) with
      ⟨r, d2⟩
    rcases r with s' | r
    · have hd2 : d2 = ((ZektaTimeBucket.sortTimeSeriesEntries (e :: rest)).takeWhile
          (entryValid b)).foldl (fun acc e => pushRaw acc e.time e.value) d := by
        have h := insertLoop_error_spec b (ZektaTimeBucket.sortTimeSeriesEntries (e :: rest))
          d s' (by rw [hloop])
        rw [hloop] at h
        exact h
      refine ⟨by rw [← hd2], hclean, ?_⟩
      intro u
      exact flush_clean_noop _ u hclean
    · rw [hloop] at herr
      have hcontra : Except.ok () = Except.error s := herr
      exact Except.noConfusion hcontra


/-- Witness for C10: inserting `[(600, [8]), (0, [7])]` into an empty loaded bucket of
range `[0, 512)` — the sorted batch is `[(0, [7]), (600, [8])]`, the first entry lands
in memory, the second aborts the call. -/
theorem claim_C10_witness :
    ((ZektaTimeBucket.mk 0 1 (some []) false none).insert
        [⟨600, [8]⟩, ⟨0, [7]⟩]).2.data =
      some ((((ZektaTimeBucket.sortTimeSeriesEntries [⟨600, [8]⟩, ⟨0, [7]⟩]).takeWhile
          (entryValid (ZektaTimeBucket.mk 0 1 (some []) false none)))).foldl
        (fun acc e => pushRaw acc e.time e.value) []) ∧
    ((ZektaTimeBucket.mk 0 1 (some []) false none).insert
        [⟨600, [8]⟩, ⟨0, [7]⟩]).2.requireFlush = false ∧
    (∀ u, (((ZektaTimeBucket.mk 0 1 (some []) false none).insert
        [⟨600, [8]⟩, ⟨0, [7]⟩]).2.flush u).1 = .ok () ∧
      (((ZektaTimeBucket.mk 0 1 (some []) false none).insert
        [⟨600, [8]⟩, ⟨0, [7]⟩]).2.flush u).2.file = none) :=
  claim_C10 (ZektaTimeBucket.mk 0 1 (some []) false none) [] [⟨600, [8]⟩, ⟨0, [7]⟩]
    "Time out-of-range." rfl rfl (by decide)
